import Mathlib

/-!
Verification of the stuff-search storage engine (src/database.rs) and import
pipeline (src/import.rs) against its natural-language specification.

Modelling conventions:
* SQLite tables are Lean lists kept in rowid/insertion order.
* `i64` ids are modelled as `Nat`: every id the program creates is a
  non-negative AUTOINCREMENT value and no claim depends on overflow or on
  negative ids.
* The fastembed `TextEmbedding` model is an external collaborator; it is a
  function field `model : String → List Rat` of the database state (one vector
  per input document, order-preserving, per the embedding-provider contract).
* Embedding vectors are `List Rat`; no claim depends on float rounding, only
  on which rows exist and how they are linked.
* Fallible SQL reads (`query_row` on a missing row) are modelled with `Option`.
-/

set_option maxRecDepth 10000

/-- Row of the `containers` table: id, name, location, contained_by
(NULL for the root). -/
structure ContainerRow where
  id : Nat
  name : String
  location : Option String
  contained_by : Option Nat
deriving DecidableEq

/-- Row of the `Items` table. `description` stores the statements joined by
newline, exactly as `Database::insert_item` stores them. Photo blobs are byte
lists. -/
structure ItemRow where
  id : Nat
  name : String
  description : String
  small_photo : List Nat
  large_photo : List Nat
  contained_by : Nat
deriving DecidableEq

/-- Row of the `import_log` table. -/
structure ImportLogRow where
  id : Nat
  source : String
  status : String
  target_container : Nat
deriving DecidableEq

/-- `ItemResult` from src/database.rs. -/
structure ItemResult where
  id : Nat
  name : String
  description : String
  similarity : Rat
  container_name : String
  container_id : Nat
deriving DecidableEq

/-- The database state of `Database` in src/database.rs: the SQLite connection
contents plus the fastembed model.  `vec_items` holds `(rowid, embedding)`
pairs; `embedding_to_item` holds `(embedding_id, item_id)` pairs (the table's
surrogate `id` column is never read by any statement in the source, so it is
not modelled).  The `next_*` counters model SQLite's AUTOINCREMENT rowid
allocation and `last_insert_rowid`. -/
structure Database where
  model : String → List Rat
  containers : List ContainerRow
  items : List ItemRow
  vec_items : List (Nat × List Rat)
  embedding_to_item : List (Nat × Nat)
  import_log : List ImportLogRow
  next_item_id : Nat
  next_vec_rowid : Nat
  next_container_id : Nat
  next_import_id : Nat

/-- The loop body of `Database::insert_embeddings`: for each embedding, insert
it into `vec_items`, read `last_insert_rowid` as the fresh `embedding_id`, and
insert the `(embedding_id, item_id)` link into `embedding_to_item`. -/
def insertEmbLoop (item_id : Nat) : Database → List (List Rat) → Database
  | db, [] => db
  | db, e :: rest =>
      insertEmbLoop item_id
        { db with
          vec_items := db.vec_items ++ [(db.next_vec_rowid, e)],
          embedding_to_item := db.embedding_to_item ++ [(db.next_vec_rowid, item_id)],
          next_vec_rowid := db.next_vec_rowid + 1 } rest

/-- `Database::insert_embeddings`: the embedded documents are the name, then
one document per description statement, then the full description joined with
newlines. -/
def Database.insert_embeddings (db : Database) (name : String)
    (description_statements : List String) (item_id : Nat) : Database :=
  insertEmbLoop item_id db
    ((name :: description_statements ++
        [String.intercalate "\n" description_statements]).map db.model)

/-- The item row built by `Database::insert_item`. -/
def mkItemRow (item_id : Nat) (name : String) (description : List String)
    (small_photo large_photo : List Nat) (contained_by : Nat) : ItemRow where
  id := item_id
  name := name
  description := String.intercalate "\n" description
  small_photo := small_photo
  large_photo := large_photo
  contained_by := contained_by

/-- `Database::insert_item`: insert the item row (id from AUTOINCREMENT /
`last_insert_rowid`), then insert its embeddings.  The source performs no
existence check on `contained_by`, and the schema created by `Database::init`
declares no foreign-key constraint on `Items.contained_by`. -/
def Database.insert_item (db : Database) (name : String) (description : List String)
    (small_photo large_photo : List Nat) (contained_by : Nat) : Database :=
  Database.insert_embeddings
    { db with
      items := db.items ++
        [mkItemRow db.next_item_id name description small_photo large_photo contained_by],
      next_item_id := db.next_item_id + 1 }
    name description db.next_item_id

/-- The database produced by `Database::init` on a fresh file: all tables
empty except for the root container row `(1, "ROOT", NULL, NULL)`. -/
def Database.initial (model : String → List Rat) : Database where
  model := model
  containers := [{ id := 1, name := "ROOT", location := none, contained_by := none }]
  items := []
  vec_items := []
  embedding_to_item := []
  import_log := []
  next_item_id := 1
  next_vec_rowid := 1
  next_container_id := 2
  next_import_id := 1

theorem insertEmbLoop_spec (item_id : Nat) :
    ∀ (es : List (List Rat)) (db : Database),
      (insertEmbLoop item_id db es).embedding_to_item =
        db.embedding_to_item ++
          (List.range es.length).map (fun k => (db.next_vec_rowid + k, item_id)) ∧
      (insertEmbLoop item_id db es).vec_items.length =
        db.vec_items.length + es.length ∧
      (∀ v ∈ (insertEmbLoop item_id db es).vec_items,
        v ∈ db.vec_items ∨ db.next_vec_rowid ≤ v.1) ∧
      (insertEmbLoop item_id db es).items = db.items ∧
      (insertEmbLoop item_id db es).containers = db.containers ∧
      (insertEmbLoop item_id db es).import_log = db.import_log ∧
      (insertEmbLoop item_id db es).model = db.model ∧
      (insertEmbLoop item_id db es).next_item_id = db.next_item_id ∧
      (insertEmbLoop item_id db es).next_vec_rowid = db.next_vec_rowid + es.length := by
  intro es
  induction es with
  | nil =>
    intro db
    exact ⟨by simp [insertEmbLoop], by simp [insertEmbLoop], fun v hv => Or.inl hv,
      rfl, rfl, rfl, rfl, rfl, by simp [insertEmbLoop]⟩
  | cons e rest ih =>
    intro db
    obtain ⟨h1, h2, h3, h4, h5, h6, h7, h8, h9⟩ :=
      ih { db with
            vec_items := db.vec_items ++ [(db.next_vec_rowid, e)],
            embedding_to_item := db.embedding_to_item ++ [(db.next_vec_rowid, item_id)],
            next_vec_rowid := db.next_vec_rowid + 1 }
    dsimp only at h1 h2 h3 h4 h5 h6 h7 h8 h9
    refine ⟨?_, ?_, ?_, ?_, ?_, ?_, ?_, ?_, ?_⟩
    · rw [insertEmbLoop, h1]
      simp [List.range_succ_eq_map, List.map_map, Function.comp, Nat.add_assoc,
        Nat.add_comm 1]
    · rw [insertEmbLoop, h2]; simp; omega
    · intro v hv
      rw [insertEmbLoop] at hv
      rcases h3 v hv with h | h
      · rcases List.mem_append.mp h with h' | h'
        · exact Or.inl h'
        · have hv' := List.mem_singleton.mp h'
          subst hv'
          right; simp
      · right; omega
    · rw [insertEmbLoop, h4]
    · rw [insertEmbLoop, h5]
    · rw [insertEmbLoop, h6]
    · rw [insertEmbLoop, h7]
    · rw [insertEmbLoop, h8]
    · rw [insertEmbLoop, h9]; simp; omega

theorem insert_embeddings_links (db : Database) (name : String)
    (stmts : List String) (item_id : Nat) :
    (db.insert_embeddings name stmts item_id).embedding_to_item =
      db.embedding_to_item ++
        (List.range (stmts.length + 2)).map (fun k => (db.next_vec_rowid + k, item_id)) := by
  have h := (insertEmbLoop_spec item_id
    ((name :: stmts ++ [String.intercalate "\n" stmts]).map db.model) db).1
  rw [Database.insert_embeddings]
  simp only [List.length_map, List.length_cons, List.length_append,
    List.length_nil] at h
  rw [h]

theorem insert_embeddings_vec_len (db : Database) (name : String)
    (stmts : List String) (item_id : Nat) :
    (db.insert_embeddings name stmts item_id).vec_items.length =
      db.vec_items.length + (stmts.length + 2) := by
  have h := (insertEmbLoop_spec item_id
    ((name :: stmts ++ [String.intercalate "\n" stmts]).map db.model) db).2.1
  rw [Database.insert_embeddings]
  simp only [List.length_map, List.length_cons, List.length_append,
    List.length_nil] at h
  rw [h]

theorem insert_embeddings_vec_fresh (db : Database) (name : String)
    (stmts : List String) (item_id : Nat) :
    ∀ v ∈ (db.insert_embeddings name stmts item_id).vec_items,
      v ∈ db.vec_items ∨ db.next_vec_rowid ≤ v.1 :=
  (insertEmbLoop_spec item_id
    ((name :: stmts ++ [String.intercalate "\n" stmts]).map db.model) db).2.2.1

theorem insert_embeddings_items (db : Database) (name : String)
    (stmts : List String) (item_id : Nat) :
    (db.insert_embeddings name stmts item_id).items = db.items :=
  (insertEmbLoop_spec item_id
    ((name :: stmts ++ [String.intercalate "\n" stmts]).map db.model) db).2.2.2.1

theorem insert_embeddings_containers (db : Database) (name : String)
    (stmts : List String) (item_id : Nat) :
    (db.insert_embeddings name stmts item_id).containers = db.containers :=
  (insertEmbLoop_spec item_id
    ((name :: stmts ++ [String.intercalate "\n" stmts]).map db.model) db).2.2.2.2.1

theorem insert_embeddings_import_log (db : Database) (name : String)
    (stmts : List String) (item_id : Nat) :
    (db.insert_embeddings name stmts item_id).import_log = db.import_log :=
  (insertEmbLoop_spec item_id
    ((name :: stmts ++ [String.intercalate "\n" stmts]).map db.model) db).2.2.2.2.2.1

theorem insert_embeddings_model (db : Database) (name : String)
    (stmts : List String) (item_id : Nat) :
    (db.insert_embeddings name stmts item_id).model = db.model :=
  (insertEmbLoop_spec item_id
    ((name :: stmts ++ [String.intercalate "\n" stmts]).map db.model) db).2.2.2.2.2.2.1

theorem insert_embeddings_next_item_id (db : Database) (name : String)
    (stmts : List String) (item_id : Nat) :
    (db.insert_embeddings name stmts item_id).next_item_id = db.next_item_id :=
  (insertEmbLoop_spec item_id
    ((name :: stmts ++ [String.intercalate "\n" stmts]).map db.model) db).2.2.2.2.2.2.2.1

theorem insert_item_items (db : Database) (name : String) (description : List String)
    (sp lp : List Nat) (cb : Nat) :
    (db.insert_item name description sp lp cb).items =
      db.items ++ [mkItemRow db.next_item_id name description sp lp cb] := by
  rw [Database.insert_item, insert_embeddings_items]

theorem insert_item_links (db : Database) (name : String) (description : List String)
    (sp lp : List Nat) (cb : Nat) :
    (db.insert_item name description sp lp cb).embedding_to_item =
      db.embedding_to_item ++
        (List.range (description.length + 2)).map
          (fun k => (db.next_vec_rowid + k, db.next_item_id)) := by
  rw [Database.insert_item, insert_embeddings_links]

theorem insert_item_vec_len (db : Database) (name : String) (description : List String)
    (sp lp : List Nat) (cb : Nat) :
    (db.insert_item name description sp lp cb).vec_items.length =
      db.vec_items.length + (description.length + 2) := by
  rw [Database.insert_item, insert_embeddings_vec_len]

theorem insert_item_containers (db : Database) (name : String) (description : List String)
    (sp lp : List Nat) (cb : Nat) :
    (db.insert_item name description sp lp cb).containers = db.containers := by
  rw [Database.insert_item, insert_embeddings_containers]

theorem insert_item_import_log (db : Database) (name : String) (description : List String)
    (sp lp : List Nat) (cb : Nat) :
    (db.insert_item name description sp lp cb).import_log = db.import_log := by
  rw [Database.insert_item, insert_embeddings_import_log]

theorem insert_item_model (db : Database) (name : String) (description : List String)
    (sp lp : List Nat) (cb : Nat) :
    (db.insert_item name description sp lp cb).model = db.model := by
  rw [Database.insert_item, insert_embeddings_model]

theorem insert_item_next_item_id (db : Database) (name : String) (description : List String)
    (sp lp : List Nat) (cb : Nat) :
    (db.insert_item name description sp lp cb).next_item_id = db.next_item_id + 1 := by
  rw [Database.insert_item, insert_embeddings_next_item_id]

/-- **C5.** For every call to `insert_item` with a name and `N` description
statements, exactly `N + 2` embedding rows are created (one per statement, one
for the name, one for the joined full description), the item row is inserted,
and every one of those embedding rows is linked to the new item's id. -/
theorem insert_item_creates_n_plus_two_embeddings (db : Database) (name : String)
    (description : List String) (sp lp : List Nat) (contained_by : Nat) :
    (db.insert_item name description sp lp contained_by).vec_items.length =
        db.vec_items.length + (description.length + 2) ∧
    (db.insert_item name description sp lp contained_by).items =
        db.items ++ [mkItemRow db.next_item_id name description sp lp contained_by] ∧
    (db.insert_item name description sp lp contained_by).embedding_to_item =
        db.embedding_to_item ++
          (List.range (description.length + 2)).map
            (fun k => (db.next_vec_rowid + k, db.next_item_id)) ∧
    ∀ l ∈ (db.insert_item name description sp lp contained_by).embedding_to_item,
      l ∉ db.embedding_to_item → l.2 = db.next_item_id := by
  refine ⟨insert_item_vec_len db name description sp lp contained_by,
    insert_item_items db name description sp lp contained_by,
    insert_item_links db name description sp lp contained_by, ?_⟩
  intro l hl hnot
  rw [insert_item_links] at hl
  rcases List.mem_append.mp hl with h | h
  · exact absurd h hnot
  · simp at h
    obtain ⟨k, hk1, hk2⟩ := h
    rw [← hk2]

/-- The first loop of `Database::query`, restricted to the id-collection part:
the source pushes an `item_id` onto `item_ids` only when `item_hits` does not
yet contain it, so `item_ids` lists the distinct hit items in order of first
occurrence.  `seen` is the key set of the `item_hits` map so far. -/
def collectIds (seen : List Nat) : List Nat → List Nat
  | [] => []
  | i :: rest => if i ∈ seen then collectIds seen rest else i :: collectIds (i :: seen) rest

/-- Per-candidate link lookup of `Database::query`:
`SELECT item_id FROM embedding_to_item WHERE embedding_id = ?` via `query_row`
(first matching row; a missing row is an error that aborts the whole query). -/
def queryHitItems (db : Database) (candidates : List (Nat × Rat)) : Option (List Nat) :=
  candidates.mapM fun cand => (db.embedding_to_item.find? fun l => l.1 = cand.1).map (·.2)

/-- The final per-item fetch of `Database::query`: join of `Items` with
`containers` on `contained_by`; the `similarity` field is hard-coded to `0.0`
by the source. -/
def fetchItemResult (db : Database) (item_id : Nat) : Option ItemResult :=
  match db.items.find? fun r => r.id = item_id with
  | none => none
  | some r =>
    match db.containers.find? fun c => c.id = r.contained_by with
    | none => none
    | some c =>
      some { id := r.id, name := r.name, description := r.description,
             similarity := 0, container_name := c.name, container_id := r.contained_by }

/-- `Database::query` after the nearest-neighbour search.  `candidates` is the
`(rowid, distance)` list produced by the `vec_items MATCH … ORDER BY distance
LIMIT 100` statement — the vector search itself is the sqlite-vec extension,
an external collaborator, so the candidate list is universally quantified in
the theorems below.  The source also builds a vector of `(item_id, hit_count)`
pairs sorted by descending hit count, but that sorted vector is discarded: the
returned rows follow `item_ids`, the first-occurrence order (see C1). -/
def Database.query (db : Database) (candidates : List (Nat × Rat)) :
    Option (List ItemResult) := do
  let hits ← queryHitItems db candidates
  let item_ids := collectIds [] hits
  item_ids.mapM (fetchItemResult db)

theorem collectIds_nodup (l : List Nat) :
    ∀ seen : List Nat, (collectIds seen l).Nodup ∧ ∀ i ∈ collectIds seen l, i ∉ seen := by
  induction l with
  | nil => intro seen; simp [collectIds]
  | cons i rest ih =>
    intro seen
    by_cases hmem : i ∈ seen
    · simp only [collectIds, if_pos hmem]
      refine ⟨(ih seen).1, fun j hj => (ih seen).2 j hj⟩
    · simp only [collectIds, if_neg hmem]
      obtain ⟨hnd, hout⟩ := ih (i :: seen)
      refine ⟨List.nodup_cons.mpr ⟨fun hc => ?_, hnd⟩, ?_⟩
      · exact hout i hc (List.mem_cons_self i seen)
      · intro j hj
        rcases List.mem_cons.mp hj with rfl | hj'
        · exact hmem
        · intro hjseen
          exact hout j hj' (List.mem_cons_of_mem i hjseen)

theorem fetchItemResult_id (db : Database) (item_id : Nat) (r : ItemResult)
    (h : fetchItemResult db item_id = some r) : r.id = item_id := by
  unfold fetchItemResult at h
  cases hf : db.items.find? fun row => row.id = item_id with
  | none => simp [hf] at h
  | some row =>
    simp only [hf] at h
    cases hc : db.containers.find? fun c => c.id = row.contained_by with
    | none => simp [hc] at h
    | some c =>
      simp only [hc, Option.some.injEq] at h
      have hrow : row.id = item_id := by
        have := List.find?_some hf
        simpa using this
      subst h
      exact hrow

theorem fetchItemResult_similarity (db : Database) (item_id : Nat) (r : ItemResult)
    (h : fetchItemResult db item_id = some r) : r.similarity = 0 := by
  unfold fetchItemResult at h
  cases hf : db.items.find? fun row => row.id = item_id with
  | none => simp [hf] at h
  | some row =>
    simp only [hf] at h
    cases hc : db.containers.find? fun c => c.id = row.contained_by with
    | none => simp [hc] at h
    | some c =>
      simp only [hc, Option.some.injEq] at h
      subst h
      rfl

theorem mapM_some_forall {α β : Type} (f : α → Option β) :
    ∀ (l : List α) (res : List β), l.mapM f = some res →
      res.length = l.length ∧ ∀ k : Nat, ∀ hk : k < res.length, ∀ hk' : k < l.length,
        f (l.get ⟨k, hk'⟩) = some (res.get ⟨k, hk⟩) := by
  intro l
  induction l with
  | nil =>
    intro res h
    simp only [List.mapM_nil, Option.pure_def, Option.some.injEq] at h
    subst h
    exact ⟨rfl, fun k hk hk' => absurd hk (by simp)⟩
  | cons a rest ih =>
    intro res h
    rw [List.mapM_cons] at h
    cases hfa : f a with
    | none => rw [hfa] at h; exact absurd h (by simp)
    | some b =>
      rw [hfa] at h
      cases hrest : rest.mapM f with
      | none => rw [hrest] at h; exact absurd h (by simp)
      | some bs =>
        rw [hrest] at h
        simp at h
        subst h
        obtain ⟨hlen, hget⟩ := ih bs hrest
        refine ⟨by simp [hlen], ?_⟩
        intro k hk hk'
        cases k with
        | zero => simpa using hfa
        | succ k =>
          simp only [List.get_cons_succ]
          exact hget k (by simpa using hk) (by simpa using hk')

/-- **C9.** For every candidate list, the result list returned by
`Database::query` contains no item id more than once, even when several of one
item's embeddings are among the nearest candidates. -/
theorem query_result_ids_nodup (db : Database) (candidates : List (Nat × Rat))
    (res : List ItemResult) (h : db.query candidates = some res) :
    (res.map (·.id)).Nodup := by
  unfold Database.query at h
  cases hhits : queryHitItems db candidates with
  | none => rw [hhits] at h; exact absurd h (by simp)
  | some hits =>
    rw [hhits] at h
    simp only [Option.bind_some, Option.pure_def] at h
    obtain ⟨hlen, hget⟩ := mapM_some_forall (fetchItemResult db) (collectIds [] hits) res h
    have hids : res.map (·.id) = collectIds [] hits := by
      apply List.ext_get (by simp [hlen])
      intro k hk1 hk2
      simp only [List.get_map]
      exact fetchItemResult_id db _ _ (hget k (by simpa using hk1) hk2)
    rw [hids]
    exact (collectIds_nodup hits []).1

/-- Witness for C9 at a concrete database and candidate list. -/
def dbSmall : Database where
  model := fun _ => []
  containers := [{ id := 1, name := "ROOT", location := none, contained_by := none },
                 { id := 2, name := "Box", location := none, contained_by := some 1 }]
  items := [{ id := 1, name := "knife", description := "steel", small_photo := [],
              large_photo := [], contained_by := 2 },
            { id := 2, name := "fork", description := "silver", small_photo := [],
              large_photo := [], contained_by := 2 }]
  vec_items := [(1, []), (2, []), (3, [])]
  embedding_to_item := [(1, 1), (2, 2), (3, 2)]
  import_log := []
  next_item_id := 3
  next_vec_rowid := 4
  next_container_id := 3
  next_import_id := 1

theorem query_result_ids_nodup_witness :
    ((([{ id := 1, name := "knife", description := "steel", similarity := 0,
          container_name := "Box", container_id := 2 },
        { id := 2, name := "fork", description := "silver", similarity := 0,
          container_name := "Box", container_id := 2 }] : List ItemResult)).map (·.id)).Nodup :=
  query_result_ids_nodup dbSmall [(1, 0), (2, 0), (3, 0)] _ (by rfl)

/-- **C10.** Every row returned by `Database::query` has `similarity = 0.0`:
the distances from the nearest-neighbour search select the candidates but are
never surfaced to the caller. -/
theorem query_similarity_always_zero (db : Database) (candidates : List (Nat × Rat))
    (res : List ItemResult) (h : db.query candidates = some res) :
    ∀ r ∈ res, r.similarity = 0 := by
  unfold Database.query at h
  cases hhits : queryHitItems db candidates with
  | none => rw [hhits] at h; exact absurd h (by simp)
  | some hits =>
    rw [hhits] at h
    simp only [Option.bind_some, Option.pure_def] at h
    intro r hr
    obtain ⟨hlen, hget⟩ := mapM_some_forall (fetchItemResult db) (collectIds [] hits) res h
    obtain ⟨k, hkr⟩ := List.get_of_mem hr
    have hk' : k.1 < (collectIds [] hits).length := by rw [← hlen]; exact k.2
    have hsim := fetchItemResult_similarity db _ _ (hget k.1 k.2 hk')
    rw [← hkr]
    exact hsim

theorem query_similarity_always_zero_witness :
    ({ id := 1, name := "knife", description := "steel", similarity := 0,
       container_name := "Box", container_id := 2 } : ItemResult).similarity = 0 :=
  query_similarity_always_zero dbSmall [(1, 0), (2, 0), (3, 0)]
    [{ id := 1, name := "knife", description := "steel", similarity := 0,
       container_name := "Box", container_id := 2 },
     { id := 2, name := "fork", description := "silver", similarity := 0,
       container_name := "Box", container_id := 2 }] (by rfl)
    _ (List.mem_cons_self _ _)

/-- **C1 (failing input).** The spec says the rows returned by
`Database::query` are ordered by non-increasing embedding-hit-count.  The
source computes the `(item_id, hit_count)` vector and sorts it by descending
count, but then discards it and emits rows in `item_ids` (first-occurrence)
order.  At this concrete input item 2 owns two of the three candidate
embeddings and item 1 owns one, yet item 1 is returned first because its
embedding appears first among the candidates. -/
theorem query_order_at_failing_input :
    queryHitItems dbSmall [(1, 0), (2, 0), (3, 0)] = some [1, 2, 2] ∧
    dbSmall.query [(1, 0), (2, 0), (3, 0)] = some
      [{ id := 1, name := "knife", description := "steel", similarity := 0,
         container_name := "Box", container_id := 2 },
       { id := 2, name := "fork", description := "silver", similarity := 0,
         container_name := "Box", container_id := 2 }] ∧
    ([1, 2, 2] : List Nat).count 1 < ([1, 2, 2] : List Nat).count 2 :=
  ⟨by rfl, by rfl, by decide⟩

/-- Structured output of the vision describer (`ItemInfo` in src/import.rs). -/
structure ItemInfo where
  name : String
  descriptions : List String
deriving DecidableEq

/-- Abstract handle for a successfully decoded image (`ImageFileReader`). -/
abbrev Image := Nat

/-- Decode outcome of one uploaded file, as branched on by `process_queue`:
either `zip::ZipArchive::new` succeeds and yields entries, or the file is
treated as a single image.  Each zip entry is `some img` when it is a file
that decodes, and `none` when `by_index` fails, the entry is not a file, or
`ImageFileReader::new` fails to decode it — all three are logged with
`error!` and skipped by the source. -/
inductive ImportFile where
  | zipArchive (entries : List (Option Image))
  | singleFile (decoded : Option Image)

/-- Events of the description retry loop: one `attempt` per call to
`get_description`, one `sleepSecs` per `tokio::time::sleep`. -/
inductive RetryEv where
  | attempt (retry : Nat) (ok : Bool)
  | sleepSecs (secs : Nat)
deriving DecidableEq

/-- The retry loop of `process_queue`
(`for retry in 0..10 { match get_description ... }`): on success the loop
breaks before sleeping; on failure it logs, sleeps 10 seconds and retries;
after the tenth failure it gives up with `none`.  `att r` is the outcome of
attempt number `r` of the external describer (`none` = transport or schema
failure).  Returns the event trace and the final outcome. -/
def retryAux (att : Nat → Option ItemInfo) : Nat → Nat → List RetryEv × Option ItemInfo
  | _, 0 => ([], none)
  | r, fuel + 1 =>
    match att r with
    | some info => ([RetryEv.attempt r true], some info)
    | none =>
      (RetryEv.attempt r false :: RetryEv.sleepSecs 10 :: (retryAux att (r + 1) fuel).1,
        (retryAux att (r + 1) fuel).2)

/-- The description task for one image: the retry loop starting at attempt 0
with a budget of 10 attempts. -/
def describeWithRetry (att : Nat → Option ItemInfo) : List RetryEv × Option ItemInfo :=
  retryAux att 0 10

/-- Image extraction in `process_queue`: zip entries are walked sequentially
and every per-entry failure is logged and skipped; a non-zip upload decodes to
at most one image. -/
def extractImages : ImportFile → List Image
  | ImportFile.zipArchive entries => entries.filterMap id
  | ImportFile.singleFile d => d.toList

/-- `Database::update_import`: `UPDATE import_log SET status = ? WHERE id = ?`. -/
def Database.update_import (db : Database) (import_id : Nat) (status : String) : Database :=
  { db with import_log := db.import_log.map fun r =>
      if r.id = import_id then { r with status := status } else r }

/-- The insertion loop at the end of `process_queue`: resized images and
description outcomes are zipped back by original index; a successfully
described image is inserted via `insert_item` under the job's target
container, a failed one is logged (`error!("Failed to import")`) and
contributes nothing.  `rs`/`rl` are the small/large downscale-and-re-encode
results for an image (CPU-bound external work; index-ordered join). -/
def insertLoop (target : Nat) (rs rl : Image → List Nat) :
    Database → List (Image × Option ItemInfo) → Database
  | db, [] => db
  | db, (img, some info) :: rest =>
      insertLoop target rs rl
        (db.insert_item info.name info.descriptions (rs img) (rl img) target) rest
  | db, (_, none) :: rest => insertLoop target rs rl db rest

/-- One full job of `process_queue`: set status `Starting`, extract the
images, resize in parallel and describe in parallel (both joined back in
original index order), insert the described images in index order, then set
status `Complete`.  `att i r` is the describer outcome for image index `i`,
attempt `r`. -/
def processJob (db : Database) (log_id : Nat) (target : Nat) (file : ImportFile)
    (att : Nat → Nat → Option ItemInfo) (rs rl : Image → List Nat) : Database :=
  Database.update_import
    (insertLoop target rs rl (db.update_import log_id "Starting")
      ((extractImages file).enum.map fun p => (p.2, (describeWithRetry (att p.1)).2)))
    log_id "Complete"

/-- The item rows created for a list of successfully described images in
original extraction order, with consecutive AUTOINCREMENT ids. -/
def buildRows (target : Nat) (rs rl : Image → List Nat) :
    Nat → List (Image × ItemInfo) → List ItemRow
  | _, [] => []
  | startId, (img, info) :: rest =>
      mkItemRow startId info.name info.descriptions (rs img) (rl img) target ::
        buildRows target rs rl (startId + 1) rest

theorem update_import_items (db : Database) (import_id : Nat) (status : String) :
    (db.update_import import_id status).items = db.items := rfl

theorem update_import_next_item_id (db : Database) (import_id : Nat) (status : String) :
    (db.update_import import_id status).next_item_id = db.next_item_id := rfl

theorem insertLoop_spec (target : Nat) (rs rl : Image → List Nat) :
    ∀ (pairs : List (Image × Option ItemInfo)) (db : Database),
      (insertLoop target rs rl db pairs).items =
        db.items ++ buildRows target rs rl db.next_item_id
          (pairs.filterMap fun p => p.2.map fun info => (p.1, info)) ∧
      (insertLoop target rs rl db pairs).import_log = db.import_log := by
  intro pairs
  induction pairs with
  | nil => intro db; simp [insertLoop, buildRows]
  | cons p rest ih =>
    intro db
    obtain ⟨img, info?⟩ := p
    cases info? with
    | none =>
      obtain ⟨h1, h2⟩ := ih db
      exact ⟨by simpa [insertLoop] using h1, by simpa [insertLoop] using h2⟩
    | some info =>
      obtain ⟨h1, h2⟩ := ih (db.insert_item info.name info.descriptions (rs img) (rl img) target)
      constructor
      · rw [insertLoop, h1, insert_item_items, insert_item_next_item_id]
        simp [buildRows]
      · rw [insertLoop, h2, insert_item_import_log]

theorem retryAux_attempt_count (att : Nat → Option ItemInfo) :
    ∀ (fuel r : Nat),
      ((retryAux att r fuel).1.filter fun e =>
        match e with | RetryEv.attempt _ _ => true | _ => false).length ≤ fuel := by
  intro fuel
  induction fuel with
  | zero => intro r; simp [retryAux]
  | succ n ih =>
    intro r
    rw [retryAux]
    cases att r with
    | some info => simp [List.filter]
    | none =>
      simp only [List.filter, List.length_cons]
      have := ih (r + 1)
      omega

theorem retryAux_sleep_ten (att : Nat → Option ItemInfo) :
    ∀ (fuel r s : Nat), RetryEv.sleepSecs s ∈ (retryAux att r fuel).1 → s = 10 := by
  intro fuel
  induction fuel with
  | zero => intro r s h; simp [retryAux] at h
  | succ n ih =>
    intro r s h
    rw [retryAux] at h
    revert h
    cases att r with
    | some info =>
      intro h
      rw [List.mem_singleton] at h
      exact RetryEv.noConfusion h
    | none =>
      intro h
      rcases List.mem_cons.mp h with h | h
      · exact RetryEv.noConfusion h
      · rcases List.mem_cons.mp h with h | h
        · injection h
        · exact ih (r + 1) s h

theorem retryAux_none_of_all_fail (att : Nat → Option ItemInfo) :
    ∀ (fuel r : Nat), (∀ k, k < fuel → att (r + k) = none) →
      (retryAux att r fuel).2 = none := by
  intro fuel
  induction fuel with
  | zero => intro r _; simp [retryAux]
  | succ n ih =>
    intro r hall
    rw [retryAux]
    have h0 : att r = none := by simpa using hall 0 (Nat.succ_pos n)
    rw [h0]
    exact ih (r + 1) fun k hk => by
      have := hall (k + 1) (by omega)
      simpa [Nat.add_assoc, Nat.add_comm 1 k] using this

theorem processJob_import_status (db : Database) (log_id target : Nat)
    (file : ImportFile) (att : Nat → Nat → Option ItemInfo) (rs rl : Image → List Nat) :
    ∀ r ∈ (processJob db log_id target file att rs rl).import_log,
      r.id = log_id → r.status = "Complete" := by
  intro r hr hid
  unfold processJob Database.update_import at hr
  simp only [List.mem_map] at hr
  obtain ⟨r0, _, hr0⟩ := hr
  by_cases hcase : r0.id = log_id
  · rw [if_pos hcase] at hr0
    rw [← hr0]
  · rw [if_neg hcase] at hr0
    exact absurd (hr0 ▸ hid) hcase

theorem processJob_items_eq (db : Database) (log_id target : Nat)
    (file : ImportFile) (att : Nat → Nat → Option ItemInfo) (rs rl : Image → List Nat) :
    (processJob db log_id target file att rs rl).items =
      db.items ++ buildRows target rs rl db.next_item_id
        ((extractImages file).enum.filterMap fun p =>
          ((describeWithRetry (att p.1)).2).map fun info => (p.2, info)) := by
  have hspec := insertLoop_spec target rs rl
    ((extractImages file).enum.map fun p => (p.2, (describeWithRetry (att p.1)).2))
    (db.update_import log_id "Starting")
  unfold processJob
  rw [update_import_items, hspec.1, update_import_items, update_import_next_item_id,
    List.filterMap_map]
  rfl

/-- **C7.** For every import job: each image's description request is
attempted at most 10 times, every sleep between attempts is the fixed 10
seconds, an image whose 10 attempts all fail contributes no item while the
job still finishes with status `Complete`, and the items that are inserted
appear in the original extraction order of their images (index-ordered join,
consecutive ids). -/
theorem import_retry_budget_completion_order (db : Database) (log_id target : Nat)
    (file : ImportFile) (att : Nat → Nat → Option ItemInfo) (rs rl : Image → List Nat) :
    (∀ i : Nat, ((describeWithRetry (att i)).1.filter fun e =>
        match e with | RetryEv.attempt _ _ => true | _ => false).length ≤ 10) ∧
    (∀ i s : Nat, RetryEv.sleepSecs s ∈ (describeWithRetry (att i)).1 → s = 10) ∧
    (∀ i : Nat, (∀ k, k < 10 → att i k = none) → (describeWithRetry (att i)).2 = none) ∧
    (∀ r ∈ (processJob db log_id target file att rs rl).import_log,
        r.id = log_id → r.status = "Complete") ∧
    (processJob db log_id target file att rs rl).items =
      db.items ++ buildRows target rs rl db.next_item_id
        ((extractImages file).enum.filterMap fun p =>
          ((describeWithRetry (att p.1)).2).map fun info => (p.2, info)) := by
  exact ⟨fun i => retryAux_attempt_count (att i) 10 0,
    fun i s h => retryAux_sleep_ten (att i) 10 0 s h,
    fun i h => retryAux_none_of_all_fail (att i) 10 0 (fun k hk => by simpa using h k hk),
    processJob_import_status db log_id target file att rs rl,
    processJob_items_eq db log_id target file att rs rl⟩

/-- Concrete database for the import counterexample/witness: fresh store with
one queued import-log row. -/
def dbImport : Database where
  model := fun _ => []
  containers := [{ id := 1, name := "ROOT", location := none, contained_by := none }]
  items := []
  vec_items := []
  embedding_to_item := []
  import_log := [{ id := 1, source := "batch.zip", status := "Added to queue",
                   target_container := 1 }]
  next_item_id := 1
  next_vec_rowid := 1
  next_container_id := 2
  next_import_id := 2

/-- **C2 (counterexample).** The spec claims that a decode failure on any zip
entry cancels the whole job (status `Failed`, zero items inserted).  On a zip
with three valid images and one corrupt entry, `process_queue` instead logs
and skips the corrupt entry, inserts the three decoded images, and sets the
job status to `Complete`. -/
theorem import_decode_failure_counterexample :
    (processJob dbImport 1 1 (ImportFile.zipArchive [some 10, none, some 11, some 12])
        (fun _ _ => some { name := "thing", descriptions := ["a thing"] })
        (fun _ => []) (fun _ => [])).import_log =
      [{ id := 1, source := "batch.zip", status := "Complete", target_container := 1 }] ∧
    (processJob dbImport 1 1 (ImportFile.zipArchive [some 10, none, some 11, some 12])
        (fun _ _ => some { name := "thing", descriptions := ["a thing"] })
        (fun _ => []) (fun _ => [])).items.length = 3 :=
  ⟨by rfl, by rfl⟩

/-- **C2 (amended).** For every import job whose input is a zip archive, a
decode failure on an archive entry does not cancel the job: the failed entry
is logged and skipped, the remaining entries are processed, the successfully
described images are inserted in extraction order, and the job status still
reaches `Complete`. -/
theorem import_decode_failure_skips_entry (db : Database) (log_id target : Nat)
    (entries : List (Option Image)) (att : Nat → Nat → Option ItemInfo)
    (rs rl : Image → List Nat) (hfail : none ∈ entries) :
    extractImages (ImportFile.zipArchive entries) = entries.filterMap id ∧
    (∀ r ∈ (processJob db log_id target (ImportFile.zipArchive entries) att rs rl).import_log,
        r.id = log_id → r.status = "Complete") ∧
    (processJob db log_id target (ImportFile.zipArchive entries) att rs rl).items =
      db.items ++ buildRows target rs rl db.next_item_id
        ((entries.filterMap id).enum.filterMap fun p =>
          ((describeWithRetry (att p.1)).2).map fun info => (p.2, info)) :=
  ⟨rfl, processJob_import_status db log_id target (ImportFile.zipArchive entries) att rs rl,
    processJob_items_eq db log_id target (ImportFile.zipArchive entries) att rs rl⟩

/-- Witness for the amended C2 at a concrete input containing a failing
entry. -/
theorem import_decode_failure_skips_entry_witness :
    (none ∈ [some 10, none, some 11]) ∧
    (processJob dbImport 1 1 (ImportFile.zipArchive [some 10, none, some 11])
        (fun _ _ => some { name := "thing", descriptions := ["a thing"] })
        (fun _ => []) (fun _ => [])).items =
      dbImport.items ++ buildRows 1 (fun _ => []) (fun _ => []) dbImport.next_item_id
        ((([some 10, none, some 11] : List (Option Image)).filterMap id).enum.filterMap fun p =>
          ((describeWithRetry ((fun _ _ => some { name := "thing", descriptions := ["a thing"] })
              p.1)).2).map fun info => (p.2, info)) :=
  ⟨by decide,
    (import_decode_failure_skips_entry dbImport 1 1 [some 10, none, some 11]
      (fun _ _ => some { name := "thing", descriptions := ["a thing"] })
      (fun _ => []) (fun _ => []) (by decide)).2.2⟩

/-- **C8 (counterexample).** The spec claims `insert_item` fails with
`NotFound` when `container_id` does not exist.  `Database::insert_item`
performs no existence check and the schema has no foreign-key constraint, so
inserting into nonexistent container 7 on a fresh store succeeds and stores
an item whose `contained_by` is dangling. -/
theorem insert_item_dangling_container_counterexample :
    ((Database.initial (fun _ => [])).insert_item "x" [] [] [] 7).items =
      [{ id := 1, name := "x", description := "", small_photo := [], large_photo := [],
         contained_by := 7 }] ∧
    7 ∉ ((Database.initial (fun _ => [])).insert_item "x" [] [] [] 7).containers.map (·.id) :=
  ⟨by rfl, by decide⟩

/-- **C8 (amended).** For every call to `insert_item` where `container_id`
does not reference an existing container, the operation does not fail: no
existence check or referential constraint exists, so the item row is inserted
with the dangling `contained_by` anyway. -/
theorem insert_item_no_container_check (db : Database) (name : String)
    (description : List String) (sp lp : List Nat) (cb : Nat)
    (hmissing : cb ∉ db.containers.map (·.id)) :
    (db.insert_item name description sp lp cb).items =
      db.items ++ [mkItemRow db.next_item_id name description sp lp cb] :=
  insert_item_items db name description sp lp cb

/-- Witness for the amended C8. -/
theorem insert_item_no_container_check_witness :
    (7 ∉ (Database.initial (fun _ => [])).containers.map (·.id)) ∧
    ((Database.initial (fun _ => [])).insert_item "x" [] [] [] 7).items =
      (Database.initial (fun _ => [])).items ++
        [mkItemRow (Database.initial (fun _ => [])).next_item_id "x" [] [] [] 7] :=
  ⟨by decide,
    insert_item_no_container_check (Database.initial (fun _ => [])) "x" [] [] [] 7 (by decide)⟩

/-- `Database::delete_embeddings_for_item`: collect the item's
`embedding_id`s from the link table, delete each of those `vec_items` rows,
then delete all of the item's link rows. -/
def Database.delete_embeddings_for_item (db : Database) (item_id : Nat) : Database :=
  { db with
    vec_items := db.vec_items.filter fun v =>
      v.1 ∉ (db.embedding_to_item.filter fun l => l.2 = item_id).map (·.1),
    embedding_to_item := db.embedding_to_item.filter fun l => ¬ l.2 = item_id }

/-- `Database::delete_item`: purge the item's embeddings, then delete the
item row. -/
def Database.delete_item (db : Database) (item_id : Nat) : Database :=
  { db.delete_embeddings_for_item item_id with
    items := (db.delete_embeddings_for_item item_id).items.filter fun r => ¬ r.id = item_id }

/-- `Database::update_item`: delete the item's existing embeddings, re-embed
the new name and the new description split on newlines, then update the item
row in place (same id, same container). -/
def Database.update_item (db : Database) (item_id : Nat)
    (item_name item_description : String) : Database :=
  { (db.delete_embeddings_for_item item_id).insert_embeddings
      item_name (item_description.splitOn "\n") item_id with
    items := ((db.delete_embeddings_for_item item_id).insert_embeddings
      item_name (item_description.splitOn "\n") item_id).items.map fun r =>
        if r.id = item_id then { r with name := item_name, description := item_description }
        else r }

theorem update_item_links (db : Database) (item_id : Nat)
    (item_name item_description : String) :
    (db.update_item item_id item_name item_description).embedding_to_item =
      (db.embedding_to_item.filter fun l => ¬ l.2 = item_id) ++
        (List.range ((item_description.splitOn "\n").length + 2)).map
          (fun k => (db.next_vec_rowid + k, item_id)) := by
  show ((db.delete_embeddings_for_item item_id).insert_embeddings
      item_name (item_description.splitOn "\n") item_id).embedding_to_item = _
  rw [insert_embeddings_links]
  rfl

theorem update_item_vec_items (db : Database) (item_id : Nat)
    (item_name item_description : String) :
    (db.update_item item_id item_name item_description).vec_items =
      ((db.delete_embeddings_for_item item_id).insert_embeddings
        item_name (item_description.splitOn "\n") item_id).vec_items := rfl

/-- **C6.** For every item, `update_item` leaves the item's embedding set
equal to exactly the regenerated set of size (new statement count + 2), and
every embedding the item owned before the update is purged: its link row is
gone and no `vec_items` row with its rowid survives, so no subsequent
nearest-neighbour query can reach it.  The freshness hypothesis states that
every linked `embedding_id` was allocated below the AUTOINCREMENT cursor,
which SQLite guarantees. -/
theorem update_item_regenerates_embeddings (db : Database) (item_id : Nat)
    (item_name item_description : String)
    (hfresh : ∀ l ∈ db.embedding_to_item, l.1 < db.next_vec_rowid) :
    ((db.update_item item_id item_name item_description).embedding_to_item.filter
        fun l => l.2 = item_id) =
      (List.range ((item_description.splitOn "\n").length + 2)).map
        (fun k => (db.next_vec_rowid + k, item_id)) ∧
    ((db.update_item item_id item_name item_description).embedding_to_item.filter
        fun l => l.2 = item_id).length = (item_description.splitOn "\n").length + 2 ∧
    ∀ l ∈ db.embedding_to_item, l.2 = item_id →
      l ∉ (db.update_item item_id item_name item_description).embedding_to_item ∧
      ∀ v ∈ (db.update_item item_id item_name item_description).vec_items, v.1 ≠ l.1 := by
  have hlinks := update_item_links db item_id item_name item_description
  have hfilter : ((db.update_item item_id item_name item_description).embedding_to_item.filter
      fun l => l.2 = item_id) =
      (List.range ((item_description.splitOn "\n").length + 2)).map
        (fun k => (db.next_vec_rowid + k, item_id)) := by
    rw [hlinks, List.filter_append]
    have h1 : ((db.embedding_to_item.filter fun l => ¬ l.2 = item_id).filter
        fun l => l.2 = item_id) = [] := by
      rw [List.filter_eq_nil_iff]
      intro l hl
      have := List.of_mem_filter hl
      simpa using this
    have h2 : (((List.range ((item_description.splitOn "\n").length + 2)).map
        (fun k => (db.next_vec_rowid + k, item_id))).filter fun l => l.2 = item_id) =
        ((List.range ((item_description.splitOn "\n").length + 2)).map
          (fun k => (db.next_vec_rowid + k, item_id))) := by
      rw [List.filter_eq_self]
      intro l hl
      simp at hl
      obtain ⟨k, _, hk⟩ := hl
      simp [← hk]
    rw [h1, h2, List.nil_append]
  refine ⟨hfilter, by rw [hfilter]; simp, ?_⟩
  intro l hl hl2
  constructor
  · rw [hlinks]
    intro hmem
    rcases List.mem_append.mp hmem with h | h
    · have := List.of_mem_filter h
      simp [hl2] at this
    · simp at h
      obtain ⟨k, _, hk⟩ := h
      have hfst : l.1 = db.next_vec_rowid + k := by rw [← hk]
      have := hfresh l hl
      omega
  · intro v hv
    rw [update_item_vec_items] at hv
    rcases insert_embeddings_vec_fresh _ _ _ _ v hv with h | h
    · have hfilt := List.of_mem_filter h
      intro hcontra
      apply (by simpa using hfilt : v.1 ∉ (db.embedding_to_item.filter
        fun l' => l'.2 = item_id).map (·.1))
      exact List.mem_map.mpr ⟨l, List.mem_filter.mpr ⟨hl, by simpa using hl2⟩, hcontra.symm⟩
    · have := hfresh l hl
      have hnext : (db.delete_embeddings_for_item item_id).next_vec_rowid =
        db.next_vec_rowid := rfl
      rw [hnext] at h
      omega

/-- Witness for C6 at a concrete database. -/
theorem update_item_regenerates_embeddings_witness :
    (∀ l ∈ dbSmall.embedding_to_item, l.1 < dbSmall.next_vec_rowid) ∧
    ((dbSmall.update_item 2 "pen" "blue ink\nfine tip").embedding_to_item.filter
        fun l => l.2 = 2).length = ("blue ink\nfine tip".splitOn "\n").length + 2 :=
  ⟨by decide,
    (update_item_regenerates_embeddings dbSmall 2 "pen" "blue ink\nfine tip"
      (by decide)).2.1⟩

/-- `Database::get_container_parent` seen as a partial map:
`SELECT contained_by FROM containers WHERE id = ?` via `query_row`.  `none`
covers both SQL error cases — no row, and a NULL `contained_by` (the root) —
either of which makes the callers' `unwrap` panic. -/
def parentOf (db : Database) (c : Nat) : Option Nat :=
  (db.containers.find? fun r => r.id = c).bind (·.contained_by)

/-- `Database::get_container_children`:
`SELECT id FROM containers WHERE contained_by = ?`. -/
def Database.get_container_children (db : Database) (c : Nat) : List Nat :=
  (db.containers.filter fun r => r.contained_by = some c).map (·.id)

/-- `Database::get_container_items`: direct items of one container; the
source fills `similarity` with `0.0` and `container_name` with an empty
string. -/
def Database.get_container_items (db : Database) (container_id : Nat) : List ItemResult :=
  (db.items.filter fun r => r.contained_by = container_id).map fun r =>
    { id := r.id, name := r.name, description := r.description, similarity := 0,
      container_name := "", container_id := container_id }

/-- `Database::move_container`:
`UPDATE containers SET contained_by = ? WHERE id = ?`. -/
def Database.move_container (db : Database) (source_id target_id : Nat) : Database :=
  { db with containers := db.containers.map fun r =>
      if r.id = source_id then { r with contained_by := some target_id } else r }

/-- Walk `n` parent-pointer steps from `c`. -/
def iterP (p : Nat → Option Nat) : Nat → Nat → Option Nat
  | 0, c => some c
  | n + 1, c => (p c).bind (iterP p n)

/-- `c` reaches the root container (id 1) by walking parent pointers; the
step count is bounded by the table size, which suffices on any acyclic
state. -/
def reachesRootB (db : Database) (c : Nat) : Bool :=
  (List.range (db.containers.length + 1)).any fun m => iterP (parentOf db) m c = some 1

/-- `b` is currently a strict descendant of `a`: some positive number of
parent steps from `b` lands on `a` (step count bounded by the table size). -/
def descB (db : Database) (a b : Nat) : Bool :=
  (List.range (db.containers.length + 1)).any fun m => iterP (parentOf db) (m + 1) b = some a

/-- Well-formedness of the container table: ids unique (PRIMARY KEY), the
root row's parent is NULL, and every container reaches the root by walking
parent pointers. -/
def TreeOk (db : Database) : Prop :=
  (db.containers.map (·.id)).Nodup ∧ parentOf db 1 = none ∧
    ∀ c ∈ db.containers.map (·.id), reachesRootB db c = true

instance (db : Database) : Decidable (TreeOk db) := by
  unfold TreeOk
  infer_instance

/-- The descendant walk of the `move_container` handler (src/main.rs): a
stack seeded with the source's children; pop a container, succeed if it is
the target, otherwise push its children and continue.  The source pops from
the end of a `Vec` and extends it with each child list, hence the `reverse`;
the `while let` loop is modelled with fuel, and the fuel supplied by
`move_container_handler` exceeds the walk's step count on any well-formed
tree. -/
def walkIsChild (db : Database) (target : Nat) : Nat → List Nat → Bool
  | 0, _ => false
  | _ + 1, [] => false
  | fuel + 1, child :: rest =>
      if child = target then true
      else walkIsChild db target fuel ((db.get_container_children child).reverse ++ rest)

/-- The `move_container` HTTP handler (src/main.rs:582-633): refuse
self-moves; read the source's parent (on the root this read fails and the
handler panics before any mutation, modelled as no state change); walk the
source's descendants, and if the target is among them first splice the
target up to the source's old parent; finally reparent the source under the
target. -/
def move_container_handler (db : Database) (source target : Nat) : Database :=
  if source = target then db
  else
    match parentOf db source with
    | none => db
    | some parent =>
        Database.move_container
          (if walkIsChild db target ((db.containers.length + 1) ^ (db.containers.length + 1))
              (db.get_container_children source).reverse
           then db.move_container target parent else db)
          source target

theorem iterP_add (p : Nat → Option Nat) :
    ∀ (a b c : Nat), iterP p (a + b) c = (iterP p a c).bind (iterP p b) := by
  intro a
  induction a with
  | zero => intro b c; simp [iterP]
  | succ a ih =>
    intro b c
    have h1 : a + 1 + b = (a + b) + 1 := by omega
    rw [h1, iterP, iterP]
    cases p c with
    | none => simp
    | some d => simpa using ih b d

theorem iterP_one (p : Nat → Option Nat) (c : Nat) : iterP p 1 c = p c := by
  rw [iterP]
  cases p c <;> simp [iterP]

theorem iterP_root_uniq (p : Nat → Option Nat) (hroot : p 1 = none) :
    ∀ (m m' c : Nat), iterP p m c = some 1 → iterP p m' c = some 1 → m = m' := by
  have key : ∀ (m k c : Nat), iterP p m c = some 1 → iterP p (m + k) c = some 1 → k = 0 := by
    intro m k c hm hmk
    rw [iterP_add, hm] at hmk
    simp at hmk
    cases k with
    | zero => rfl
    | succ k =>
      rw [iterP, hroot] at hmk
      simp at hmk
  intro m m' c hm hm'
  rcases Nat.le_total m m' with h | h
  · obtain ⟨k, rfl⟩ := Nat.le.dest h
    have := key m k c hm hm'
    omega
  · obtain ⟨k, rfl⟩ := Nat.le.dest h
    have := key m' k c hm' hm
    omega

theorem iterP_split (p : Nat → Option Nat) (i m c : Nat) (him : i ≤ m)
    (h : iterP p m c = some 1) :
    ∃ e, iterP p i c = some e ∧ iterP p (m - i) e = some 1 := by
  have h1 : i + (m - i) = m := by omega
  rw [← h1, iterP_add] at h
  cases he : iterP p i c with
  | none => rw [he] at h; simp at h
  | some e =>
    rw [he] at h
    simp at h
    exact ⟨e, rfl, h⟩

theorem iterP_snoc (p : Nat → Option Nat) (m c e : Nat) (hm : 1 ≤ m)
    (h : iterP p m c = some e) :
    ∃ d, iterP p (m - 1) c = some d ∧ p d = some e := by
  have h1 : (m - 1) + 1 = m := by omega
  rw [← h1, iterP_add] at h
  cases hd : iterP p (m - 1) c with
  | none => rw [hd] at h; simp at h
  | some d =>
    rw [hd] at h
    rw [show (some d).bind (iterP p 1) = iterP p 1 d from rfl, iterP_one] at h
    exact ⟨d, rfl, h⟩

theorem iterP_root_le (p : Nat → Option Nat) (hroot : p 1 = none) (ids : List Nat)
    (hdom : ∀ c, (p c).isSome → c ∈ ids) :
    ∀ (m c : Nat), iterP p m c = some 1 → m ≤ ids.length := by
  intro m c hm
  have hstep : ∀ i, i < m → ∃ e, iterP p i c = some e ∧ iterP p (m - i) e = some 1 :=
    fun i hi => iterP_split p i m c (Nat.le_of_lt hi) hm
  have hchain : ((List.range m).map fun i => (iterP p i c).getD 0).Nodup := by
    refine List.Nodup.map_on ?_ (List.nodup_range m)
    intro i hi j hj hij
    rw [List.mem_range] at hi hj
    obtain ⟨ei, hei, hei'⟩ := hstep i hi
    obtain ⟨ej, hej, hej'⟩ := hstep j hj
    rw [hei, hej] at hij
    simp at hij
    subst hij
    have := iterP_root_uniq p hroot (m - i) (m - j) ei hei' hej'
    omega
  have hsub : ∀ x ∈ (List.range m).map fun i => (iterP p i c).getD 0, x ∈ ids := by
    intro x hx
    simp only [List.mem_map, List.mem_range] at hx
    obtain ⟨i, hi, hix⟩ := hx
    obtain ⟨ei, hei, hei'⟩ := hstep i hi
    rw [hei] at hix
    simp at hix
    subst hix
    have hsplit : m - i = (m - i - 1) + 1 := by omega
    rw [hsplit, iterP] at hei'
    cases hpe : p ei with
    | none => rw [hpe] at hei'; simp at hei'
    | some d => exact hdom ei (by simp [hpe])
  have hlen : ((List.range m).map fun i => (iterP p i c).getD 0).length = m := by simp
  have := (List.subperm_of_subset hchain hsub).length_le
  omega

theorem parentOf_isSome_mem (db : Database) (c : Nat) (h : (parentOf db c).isSome) :
    c ∈ db.containers.map (·.id) := by
  unfold parentOf at h
  cases hf : db.containers.find? fun r => r.id = c with
  | none => rw [hf] at h; simp at h
  | some r =>
    have hmem := List.mem_of_find?_eq_some hf
    have hid : r.id = c := by simpa using List.find?_some hf
    exact hid ▸ List.mem_map.mpr ⟨r, hmem, rfl⟩

theorem children_parentOf (db : Database) (hnodup : (db.containers.map (·.id)).Nodup)
    (c d : Nat) (h : d ∈ db.get_container_children c) : parentOf db d = some c := by
  unfold Database.get_container_children at h
  simp only [List.mem_map] at h
  obtain ⟨r, hrf, hrid⟩ := h
  have hrmem := List.mem_of_mem_filter hrf
  have hrcb : r.contained_by = some c := by simpa using List.of_mem_filter hrf
  unfold parentOf
  cases hf : db.containers.find? fun r' => r'.id = d with
  | none =>
    exfalso
    have hs : (db.containers.find? fun r' => r'.id = d).isSome :=
      List.find?_isSome.mpr ⟨r, hrmem, by simp [hrid]⟩
    rw [hf] at hs
    simp at hs
  | some r' =>
    have hr'mem := List.mem_of_find?_eq_some hf
    have hr'id : r'.id = d := by simpa using List.find?_some hf
    have hrr : r' = r :=
      List.inj_on_of_nodup_map hnodup hr'mem hrmem (by rw [hr'id, hrid])
    rw [hrr]
    simpa using hrcb

theorem parentOf_mem_children (db : Database) (c d : Nat) (h : parentOf db d = some c) :
    d ∈ db.get_container_children c := by
  unfold parentOf at h
  cases hf : db.containers.find? fun r => r.id = d with
  | none => rw [hf] at h; simp at h
  | some r =>
    rw [hf] at h
    have h' : r.contained_by = some c := h
    have hid : r.id = d := by simpa using List.find?_some hf
    have hmem := List.mem_of_find?_eq_some hf
    unfold Database.get_container_children
    exact List.mem_map.mpr ⟨r, List.mem_filter.mpr ⟨hmem, by simp [h']⟩, hid⟩

theorem children_length_le (db : Database) (c : Nat) :
    (db.get_container_children c).length ≤ db.containers.length := by
  unfold Database.get_container_children
  simpa using List.length_filter_le _ _

theorem move_container_ids (db : Database) (s t : Nat) :
    (db.move_container s t).containers.map (·.id) = db.containers.map (·.id) := by
  unfold Database.move_container
  dsimp only
  rw [List.map_map]
  apply List.map_congr_left
  intro r _
  by_cases hr : r.id = s <;> simp [hr]

theorem parentOf_move (db : Database) (s t c : Nat) :
    parentOf (db.move_container s t) c =
      if c = s ∧ c ∈ db.containers.map (·.id) then some t else parentOf db c := by
  unfold parentOf Database.move_container
  dsimp only
  rw [List.find?_map]
  have hpred : ((fun r : ContainerRow => decide (r.id = c)) ∘ fun r =>
      if r.id = s then { r with contained_by := some t } else r) =
      fun r : ContainerRow => decide (r.id = c) := by
    funext r
    by_cases hr : r.id = s <;> simp [hr, Function.comp]
  rw [hpred]
  cases hf : db.containers.find? fun r => decide (r.id = c) with
  | none =>
    have hc : c ∉ db.containers.map (·.id) := by
      intro hc
      simp only [List.mem_map] at hc
      obtain ⟨r, hr, hrid⟩ := hc
      have hs : (db.containers.find? fun r' => decide (r'.id = c)).isSome :=
        List.find?_isSome.mpr ⟨r, hr, by simp [hrid]⟩
      rw [hf] at hs
      simp at hs
    simp [hc]
  | some r =>
    have hid : r.id = c := by simpa using List.find?_some hf
    have hmem : c ∈ db.containers.map (·.id) := hid ▸
      List.mem_map.mpr ⟨r, List.mem_of_find?_eq_some hf, rfl⟩
    by_cases hcs : c = s
    · rw [if_pos ⟨hcs, hmem⟩]
      simp [hid, hcs]
    · rw [if_neg (by simp [hcs])]
      have : ¬ r.id = s := by rw [hid]; exact hcs
      simp [this]

/-- Number of parent steps from `c` to the root, computed with fuel (the
parent map is a function, so the chain — and hence the distance — is
unique when it exists). -/
def distToRoot (p : Nat → Option Nat) : Nat → Nat → Option Nat
  | 0, _ => none
  | fuel + 1, c =>
    if c = 1 then some 0
    else (p c).bind fun d => (distToRoot p fuel d).map (· + 1)

theorem distToRoot_sound (p : Nat → Option Nat) :
    ∀ (fuel c k : Nat), distToRoot p fuel c = some k → iterP p k c = some 1 := by
  intro fuel
  induction fuel with
  | zero => intro c k h; simp [distToRoot] at h
  | succ n ih =>
    intro c k h
    rw [distToRoot] at h
    by_cases hc : c = 1
    · rw [if_pos hc] at h
      simp only [Option.some.injEq] at h
      subst h
      simp [iterP, hc]
    · rw [if_neg hc] at h
      cases hp : p c with
      | none => rw [hp] at h; simp at h
      | some d =>
        rw [hp] at h
        have h2 : (distToRoot p n d).map (· + 1) = some k := h
        cases hd : distToRoot p n d with
        | none => rw [hd] at h2; simp at h2
        | some k' =>
          rw [hd] at h2
          have h3 : k' + 1 = k := by
            have : some (k' + 1) = some k := h2
            simpa using this
          subst h3
          rw [iterP, hp]
          simpa using ih d k' hd

theorem distToRoot_complete (p : Nat → Option Nat) (hroot : p 1 = none) :
    ∀ (k fuel c : Nat), k < fuel → iterP p k c = some 1 → distToRoot p fuel c = some k := by
  intro k
  induction k with
  | zero =>
    intro fuel c hk h
    simp only [iterP, Option.some.injEq] at h
    subst h
    cases fuel with
    | zero => omega
    | succ n => simp [distToRoot]
  | succ k ih =>
    intro fuel c hk h
    rw [iterP] at h
    cases hp : p c with
    | none => rw [hp] at h; simp at h
    | some d =>
      rw [hp] at h
      have h2 : iterP p k d = some 1 := h
      have hc : ¬ c = 1 := by
        intro hc
        rw [hc, hroot] at hp
        exact Option.noConfusion hp
      cases fuel with
      | zero => omega
      | succ n =>
        rw [distToRoot, if_neg hc, hp]
        show (distToRoot p n d).map (· + 1) = some (k + 1)
        rw [ih n d (by omega) h2]
        rfl

/-- Termination measure for the stack-driven tree walks: each stack entry
`c` weighs `(n + 1) ^ (n - dist c)`; popping an entry and pushing its
children strictly decreases the total. -/
def muStack (p : Nat → Option Nat) (n : Nat) (stack : List Nat) : Nat :=
  (stack.map fun c => (n + 1) ^ (n - (distToRoot p (n + 1) c).getD 0)).sum

theorem muStack_append (p : Nat → Option Nat) (n : Nat) (l r : List Nat) :
    muStack p n (l ++ r) = muStack p n l + muStack p n r := by
  unfold muStack
  rw [List.map_append, List.sum_append]

theorem muStack_reverse (p : Nat → Option Nat) (n : Nat) (l : List Nat) :
    muStack p n l.reverse = muStack p n l := by
  unfold muStack
  rw [List.map_reverse, List.sum_reverse]

theorem muStack_step (p : Nat → Option Nat) (hroot : p 1 = none) (ids : List Nat)
    (hdom : ∀ c, (p c).isSome → c ∈ ids)
    (c : Nat) (rest children : List Nat)
    (hc : ∃ m, iterP p m c = some 1)
    (hch : ∀ d ∈ children, p d = some c)
    (hlen : children.length ≤ ids.length) :
    muStack p ids.length (children ++ rest) < muStack p ids.length (c :: rest) := by
  obtain ⟨m, hm⟩ := hc
  have hmle : m ≤ ids.length := iterP_root_le p hroot ids hdom m c hm
  have hdc : distToRoot p (ids.length + 1) c = some m :=
    distToRoot_complete p hroot m (ids.length + 1) c (by omega) hm
  have hchild_reach : ∀ d ∈ children, iterP p (m + 1) d = some 1 := by
    intro d hd
    have h1 : (1 : Nat) + m = m + 1 := by omega
    rw [← h1, iterP_add, iterP_one, hch d hd]
    simpa using hm
  have hchild_dist : ∀ d ∈ children,
      distToRoot p (ids.length + 1) d = some (m + 1) := by
    intro d hd
    have hle : m + 1 ≤ ids.length :=
      iterP_root_le p hroot ids hdom (m + 1) d (hchild_reach d hd)
    exact distToRoot_complete p hroot (m + 1) (ids.length + 1) d (by omega)
      (hchild_reach d hd)
  have hsum : muStack p ids.length children <
      (ids.length + 1) ^ (ids.length - m) := by
    cases children with
    | nil =>
      unfold muStack
      simp
    | cons d0 ds =>
      have hmlt : m + 1 ≤ ids.length :=
        iterP_root_le p hroot ids hdom (m + 1) d0
          (hchild_reach d0 (List.mem_cons_self d0 ds))
      have hterm : ∀ x ∈ (d0 :: ds).map fun d =>
          (ids.length + 1) ^ (ids.length - (distToRoot p (ids.length + 1) d).getD 0),
          x ≤ (ids.length + 1) ^ (ids.length - (m + 1)) := by
        intro x hx
        simp only [List.mem_map] at hx
        obtain ⟨d, hd, hdx⟩ := hx
        rw [hchild_dist d hd] at hdx
        simp at hdx
        omega
      have hbound := List.sum_le_card_nsmul _ _ hterm
      unfold muStack
      calc ((d0 :: ds).map fun d =>
            (ids.length + 1) ^ (ids.length - (distToRoot p (ids.length + 1) d).getD 0)).sum
          ≤ ((d0 :: ds).map fun d =>
            (ids.length + 1) ^ (ids.length - (distToRoot p (ids.length + 1) d).getD 0)).length •
              (ids.length + 1) ^ (ids.length - (m + 1)) := hbound
        _ = (d0 :: ds).length * (ids.length + 1) ^ (ids.length - (m + 1)) := by
              rw [List.length_map, smul_eq_mul]
        _ ≤ ids.length * (ids.length + 1) ^ (ids.length - (m + 1)) := by
              exact Nat.mul_le_mul_right _ hlen
        _ < (ids.length + 1) * (ids.length + 1) ^ (ids.length - (m + 1)) :=
              mul_lt_mul_of_pos_right (by omega)
                (pow_pos (by omega : (0 : Nat) < ids.length + 1) _)
        _ = (ids.length + 1) ^ (ids.length - (m + 1) + 1) := by
              rw [Nat.pow_succ, Nat.mul_comm]
        _ = (ids.length + 1) ^ (ids.length - m) := by
              congr 1
              omega
  have hmu_cons : muStack p ids.length (c :: rest) =
      (ids.length + 1) ^ (ids.length - m) + muStack p ids.length rest := by
    unfold muStack
    rw [List.map_cons, List.sum_cons, hdc]
    rfl
  rw [muStack_append, hmu_cons]
  omega

theorem walk_finds (db : Database) (hnodup : (db.containers.map (·.id)).Nodup)
    (hroot : parentOf db 1 = none) (target : Nat) :
    ∀ (fuel : Nat) (stack : List Nat),
      muStack (parentOf db) (db.containers.map (·.id)).length stack < fuel →
      (∀ c ∈ stack, ∃ m, iterP (parentOf db) m c = some 1) →
      (∃ c ∈ stack, ∃ m, iterP (parentOf db) m target = some c) →
      walkIsChild db target fuel stack = true := by
  intro fuel
  induction fuel with
  | zero => intro stack hmu _ _; omega
  | succ n ih =>
    intro stack hmu hreach hwit
    cases stack with
    | nil =>
      obtain ⟨c, hc, _⟩ := hwit
      exact absurd hc (List.not_mem_nil c)
    | cons c rest =>
      rw [walkIsChild]
      by_cases hct : c = target
      · rw [if_pos hct]
      · rw [if_neg hct]
        apply ih
        · have hstep := muStack_step (parentOf db) hroot (db.containers.map (·.id))
            (fun x hx => parentOf_isSome_mem db x hx) c rest (db.get_container_children c)
            (hreach c (List.mem_cons_self c rest))
            (fun d hd => children_parentOf db hnodup c d hd)
            (by simpa using children_length_le db c)
          have heq : muStack (parentOf db) (db.containers.map (·.id)).length
              ((db.get_container_children c).reverse ++ rest) =
              muStack (parentOf db) (db.containers.map (·.id)).length
              (db.get_container_children c ++ rest) := by
            rw [muStack_append, muStack_append, muStack_reverse]
          omega
        · intro x hx
          rcases List.mem_append.mp hx with hx | hx
          · rw [List.mem_reverse] at hx
            have hpx := children_parentOf db hnodup c x hx
            obtain ⟨m, hm⟩ := hreach c (List.mem_cons_self c rest)
            refine ⟨1 + m, ?_⟩
            rw [iterP_add, iterP_one, hpx]
            exact hm
          · exact hreach x (List.mem_cons_of_mem c hx)
        · obtain ⟨w, hw, m, hm⟩ := hwit
          rcases List.mem_cons.mp hw with rfl | hw'
          · have hm1 : 1 ≤ m := by
              rcases Nat.eq_zero_or_pos m with h0 | h1
              · exfalso
                rw [h0] at hm
                simp only [iterP, Option.some.injEq] at hm
                exact hct hm.symm
              · exact h1
            obtain ⟨d, hd, hpd⟩ := iterP_snoc (parentOf db) m target w hm1 hm
            exact ⟨d, List.mem_append.mpr (Or.inl (List.mem_reverse.mpr
              (parentOf_mem_children db w d hpd))), m - 1, hd⟩
          · exact ⟨w, List.mem_append.mpr (Or.inr hw'), m, hm⟩

theorem splice_reaches (p p' : Nat → Option Nat) (A B P : Nat)
    (hroot : p 1 = none)
    (hpA : p A = some P)
    (hchain : ∃ m, 1 ≤ m ∧ iterP p m B = some A)
    (hAreach : ∃ mA, iterP p mA A = some 1)
    (hp'A : p' A = some B) (hp'B : p' B = some P)
    (hother : ∀ c, c ≠ A → c ≠ B → p' c = p c) :
    ∀ (m c : Nat), iterP p m c = some 1 → ∃ m', iterP p' m' c = some 1 := by
  obtain ⟨mB, hmB1, hmB⟩ := hchain
  obtain ⟨mA, hmA⟩ := hAreach
  have hA1 : A ≠ 1 := by
    intro h
    rw [h, hroot] at hpA
    exact Option.noConfusion hpA
  have hmA1 : 1 ≤ mA := by
    rcases Nat.eq_zero_or_pos mA with h0 | h1
    · exfalso
      rw [h0] at hmA
      simp only [iterP, Option.some.injEq] at hmA
      exact hA1 hmA
    · exact h1
  have hP : iterP p (mA - 1) P = some 1 := by
    have h1 : mA = 1 + (mA - 1) := by omega
    rw [h1, iterP_add, iterP_one, hpA] at hmA
    exact hmA
  have havoidA : ∀ (j e : Nat), iterP p j P = some e → e ≠ A := by
    intro j e hj heA
    rw [heA] at hj
    have hcyc : iterP p (1 + j) A = some A := by
      rw [iterP_add, iterP_one, hpA]
      exact hj
    have h1 : iterP p ((1 + j) + mA) A = some 1 := by
      rw [iterP_add, hcyc]
      exact hmA
    have := iterP_root_uniq p hroot mA ((1 + j) + mA) A hmA h1
    omega
  have havoidB : ∀ (j e : Nat), iterP p j P = some e → e ≠ B := by
    intro j e hj heB
    rw [heB] at hj
    have hAB : iterP p (1 + j) A = some B := by
      rw [iterP_add, iterP_one, hpA]
      exact hj
    have hAA : iterP p ((1 + j) + mB) A = some A := by
      rw [iterP_add, hAB]
      exact hmB
    have h1 : iterP p (((1 + j) + mB) + mA) A = some 1 := by
      rw [iterP_add, hAA]
      exact hmA
    have := iterP_root_uniq p hroot mA (((1 + j) + mB) + mA) A hmA h1
    omega
  have htransfer : ∀ (k c : Nat), iterP p k c = some 1 →
      (∀ j e, j < k → iterP p j c = some e → e ≠ A ∧ e ≠ B) →
      iterP p' k c = some 1 := by
    intro k
    induction k with
    | zero => intro c h _; exact h
    | succ k ih =>
      intro c h havoid
      have hc0 : iterP p 0 c = some c := rfl
      have hcA : c ≠ A := (havoid 0 c (by omega) hc0).1
      have hcB : c ≠ B := (havoid 0 c (by omega) hc0).2
      rw [iterP] at h
      rw [iterP, hother c hcA hcB]
      cases hp : p c with
      | none => rw [hp] at h; simp at h
      | some d =>
        rw [hp] at h
        have hd : iterP p k d = some 1 := h
        show iterP p' k d = some 1
        apply ih d hd
        intro j e hj hje
        apply havoid (j + 1) e (by omega)
        have h1 : j + 1 = 1 + j := by omega
        rw [h1, iterP_add, iterP_one, hp]
        exact hje
  have hPreach : iterP p' (mA - 1) P = some 1 :=
    htransfer (mA - 1) P hP fun j e _ hje => ⟨havoidA j e hje, havoidB j e hje⟩
  have hBreach : iterP p' (1 + (mA - 1)) B = some 1 := by
    rw [iterP_add, iterP_one, hp'B]
    exact hPreach
  have hAreach' : iterP p' (1 + (1 + (mA - 1))) A = some 1 := by
    rw [iterP_add, iterP_one, hp'A]
    exact hBreach
  intro m
  induction m using Nat.strong_induction_on with
  | _ m ih =>
    intro c hc
    by_cases hcA : c = A
    · exact ⟨1 + (1 + (mA - 1)), hcA ▸ hAreach'⟩
    by_cases hcB : c = B
    · exact ⟨1 + (mA - 1), hcB ▸ hBreach⟩
    cases m with
    | zero => exact ⟨0, hc⟩
    | succ m' =>
      rw [iterP] at hc
      cases hp : p c with
      | none => rw [hp] at hc; simp at hc
      | some d =>
        rw [hp] at hc
        have hd : iterP p m' d = some 1 := hc
        obtain ⟨k', hk'⟩ := ih m' (by omega) d hd
        refine ⟨1 + k', ?_⟩
        rw [iterP_add, iterP_one, hother c hcA hcB, hp]
        exact hk'

theorem move_container_containers_length (db : Database) (s t : Nat) :
    (db.move_container s t).containers.length = db.containers.length := by
  unfold Database.move_container
  simp

/-- **C3.** For every pair of containers `(A, B)` with `A ≠ B` where `B` is
currently a descendant of `A` in a well-formed tree, the `move_container`
handler does not create a cycle: it first splices `B` up to `A`'s old parent
and then reparents `A` under `B`, so afterwards walking parent pointers from
any container — including `B` — still reaches the root in finitely many
steps (the tree stays well-formed). -/
theorem move_container_no_cycle (db : Database) (A B : Nat)
    (hwf : TreeOk db) (hne : A ≠ B) (hdesc : descB db A B = true) :
    TreeOk (move_container_handler db A B) := by
  obtain ⟨hnodup, hroot, hreach⟩ := hwf
  have hdesc' : ∃ m, 1 ≤ m ∧ iterP (parentOf db) m B = some A := by
    unfold descB at hdesc
    rw [List.any_eq_true] at hdesc
    obtain ⟨m, _, hm⟩ := hdesc
    exact ⟨m + 1, by omega, by simpa using hm⟩
  have hreach' : ∀ c ∈ db.containers.map (·.id),
      ∃ m, iterP (parentOf db) m c = some 1 := by
    intro c hc
    have hrc := hreach c hc
    unfold reachesRootB at hrc
    rw [List.any_eq_true] at hrc
    obtain ⟨m, _, hm⟩ := hrc
    exact ⟨m, by simpa using hm⟩
  unfold move_container_handler
  rw [if_neg hne]
  cases hpA : parentOf db A with
  | none => exact ⟨hnodup, hroot, hreach⟩
  | some P =>
    obtain ⟨mB, hmB1, hmB⟩ := hdesc'
    have hAmem : A ∈ db.containers.map (·.id) :=
      parentOf_isSome_mem db A (by simp [hpA])
    have hBsome : (parentOf db B).isSome := by
      have h1 : mB = 1 + (mB - 1) := by omega
      rw [h1, iterP_add, iterP_one] at hmB
      cases hpB : parentOf db B with
      | none => rw [hpB] at hmB; simp at hmB
      | some q => simp
    have hBmem : B ∈ db.containers.map (·.id) := parentOf_isSome_mem db B hBsome
    obtain ⟨mA, hmA⟩ := hreach' A hAmem
    have hNc : (db.containers.map (·.id)).length = db.containers.length := by simp
    have hwalk : walkIsChild db B
        ((db.containers.length + 1) ^ (db.containers.length + 1))
        (db.get_container_children A).reverse = true := by
      apply walk_finds db hnodup hroot B
      · have hterm : ∀ x ∈ (db.get_container_children A).reverse.map
            (fun c => ((db.containers.map (·.id)).length + 1) ^
              ((db.containers.map (·.id)).length -
                (distToRoot (parentOf db) ((db.containers.map (·.id)).length + 1) c).getD 0)),
            x ≤ ((db.containers.map (·.id)).length + 1) ^ (db.containers.map (·.id)).length := by
          intro x hx
          simp only [List.mem_map] at hx
          obtain ⟨d, _, hdx⟩ := hx
          rw [← hdx]
          exact Nat.pow_le_pow_right (by omega) (by omega)
        have hb := List.sum_le_card_nsmul _ _ hterm
        unfold muStack
        have hlen : (db.get_container_children A).reverse.length ≤
            (db.containers.map (·.id)).length := by
          rw [List.length_reverse, hNc]
          exact children_length_le db A
        calc ((db.get_container_children A).reverse.map
              (fun c => ((db.containers.map (·.id)).length + 1) ^
                ((db.containers.map (·.id)).length -
                  (distToRoot (parentOf db) ((db.containers.map (·.id)).length + 1) c).getD 0))).sum
            ≤ ((db.get_container_children A).reverse.map
              (fun c => ((db.containers.map (·.id)).length + 1) ^
                ((db.containers.map (·.id)).length -
                  (distToRoot (parentOf db) ((db.containers.map (·.id)).length + 1) c).getD 0))).length •
                (((db.containers.map (·.id)).length + 1) ^ (db.containers.map (·.id)).length) := hb
          _ = (db.get_container_children A).reverse.length *
                (((db.containers.map (·.id)).length + 1) ^ (db.containers.map (·.id)).length) := by
              rw [List.length_map, smul_eq_mul]
          _ ≤ (db.containers.map (·.id)).length *
                (((db.containers.map (·.id)).length + 1) ^ (db.containers.map (·.id)).length) :=
              Nat.mul_le_mul_right _ hlen
          _ < ((db.containers.map (·.id)).length + 1) *
                (((db.containers.map (·.id)).length + 1) ^ (db.containers.map (·.id)).length) :=
              mul_lt_mul_of_pos_right (by omega)
                (pow_pos (by omega : (0 : Nat) < (db.containers.map (·.id)).length + 1) _)
          _ = ((db.containers.map (·.id)).length + 1) ^ ((db.containers.map (·.id)).length + 1) := by
              rw [Nat.pow_succ, Nat.mul_comm]
          _ = (db.containers.length + 1) ^ (db.containers.length + 1) := by rw [hNc]
      · intro x hx
        rw [List.mem_reverse] at hx
        have hpx := children_parentOf db hnodup A x hx
        refine ⟨1 + mA, ?_⟩
        rw [iterP_add, iterP_one, hpx]
        exact hmA
      · obtain ⟨d, hd, hpd⟩ := iterP_snoc (parentOf db) mB B A hmB1 hmB
        exact ⟨d, List.mem_reverse.mpr (parentOf_mem_children db A d hpd), mB - 1, hd⟩
    dsimp only
    rw [if_pos hwalk]
    have hids2 : ((db.move_container B P).move_container A B).containers.map (·.id) =
        db.containers.map (·.id) := by
      rw [move_container_ids, move_container_ids]
    have hp2A : parentOf ((db.move_container B P).move_container A B) A = some B := by
      rw [parentOf_move]
      rw [if_pos ⟨rfl, by rw [move_container_ids]; exact hAmem⟩]
    have hp2B : parentOf ((db.move_container B P).move_container A B) B = some P := by
      rw [parentOf_move, if_neg (fun h => hne h.1.symm), parentOf_move,
        if_pos ⟨rfl, hBmem⟩]
    have hp2other : ∀ c, c ≠ A → c ≠ B →
        parentOf ((db.move_container B P).move_container A B) c = parentOf db c := by
      intro c h1 h2
      rw [parentOf_move, if_neg (fun h => h1 h.1), parentOf_move, if_neg (fun h => h2 h.1)]
    have h1A : (1 : Nat) ≠ A := by
      intro h
      rw [← h, hroot] at hpA
      exact Option.noConfusion hpA
    have h1B : (1 : Nat) ≠ B := by
      intro h
      rw [← h, hroot] at hBsome
      simp at hBsome
    have hroot2 : parentOf ((db.move_container B P).move_container A B) 1 = none := by
      rw [hp2other 1 h1A h1B]
      exact hroot
    refine ⟨by rw [hids2]; exact hnodup, hroot2, ?_⟩
    intro c hc
    rw [hids2] at hc
    obtain ⟨m, hm⟩ := hreach' c hc
    obtain ⟨m', hm'⟩ := splice_reaches (parentOf db)
      (parentOf ((db.move_container B P).move_container A B)) A B P hroot hpA
      ⟨mB, hmB1, hmB⟩ ⟨mA, hmA⟩ hp2A hp2B hp2other m c hm
    have hle : m' ≤ (((db.move_container B P).move_container A B).containers.map (·.id)).length :=
      iterP_root_le _ hroot2 _
        (fun x hx => parentOf_isSome_mem ((db.move_container B P).move_container A B) x hx)
        m' c hm'
    unfold reachesRootB
    rw [List.any_eq_true]
    have hlen2 : (((db.move_container B P).move_container A B).containers.map (·.id)).length =
        ((db.move_container B P).move_container A B).containers.length := by simp
    exact ⟨m', List.mem_range.mpr (by omega), by simpa using hm'⟩

/-- Witness for C3: root ← A(2) ← B(3); moving A under its own descendant B
first splices B up to the root, then puts A under B. -/
def dbTree : Database where
  model := fun _ => []
  containers := [{ id := 1, name := "ROOT", location := none, contained_by := none },
                 { id := 2, name := "A", location := none, contained_by := some 1 },
                 { id := 3, name := "B", location := none, contained_by := some 2 }]
  items := []
  vec_items := []
  embedding_to_item := []
  import_log := []
  next_item_id := 1
  next_vec_rowid := 1
  next_container_id := 4
  next_import_id := 1

theorem move_container_no_cycle_witness :
    TreeOk dbTree ∧ (2 : Nat) ≠ 3 ∧ descB dbTree 2 3 = true ∧
      TreeOk (move_container_handler dbTree 2 3) :=
  ⟨by decide, by decide, by decide,
    move_container_no_cycle dbTree 2 3 (by decide) (by decide) (by decide)⟩

/-- The inner loop of `Database::delete_container`: delete each directly
contained item via `delete_item`. -/
def deleteItemsLoop : Database → List Nat → Database
  | db, [] => db
  | db, i :: rest => deleteItemsLoop (db.delete_item i) rest

/-- The worklist loop of `Database::delete_container`: pop a container id,
delete all its items, read its children, delete the container row, push the
children and continue.  The source pops from the end of a `Vec` and extends
it with the child list, hence the `reverse`; the `while let` loop is modelled
with fuel, and the fuel passed by `Database.delete_container` exceeds the
loop's step count on any well-formed tree. -/
def deleteContainerLoop : Nat → Database → List Nat → Database
  | 0, db, _ => db
  | _ + 1, db, [] => db
  | fuel + 1, db, cur :: stack =>
      deleteContainerLoop fuel
        { deleteItemsLoop db ((db.get_container_items cur).map (·.id)) with
          containers :=
            (deleteItemsLoop db ((db.get_container_items cur).map (·.id))).containers.filter
              fun r => ¬ r.id = cur }
        (((deleteItemsLoop db
            ((db.get_container_items cur).map (·.id))).get_container_children cur).reverse
          ++ stack)

/-- `Database::delete_container`: recursive deletion of the whole subtree. -/
def Database.delete_container (db : Database) (container_id : Nat) : Database :=
  deleteContainerLoop ((db.containers.length + 1) ^ (db.containers.length + 1)) db
    [container_id]

theorem delete_item_containers (db : Database) (j : Nat) :
    (db.delete_item j).containers = db.containers := rfl

theorem delete_item_items (db : Database) (j : Nat) :
    (db.delete_item j).items = db.items.filter fun r => ¬ r.id = j := rfl

theorem delete_item_links (db : Database) (j : Nat) :
    (db.delete_item j).embedding_to_item =
      db.embedding_to_item.filter fun l => ¬ l.2 = j := rfl

theorem delete_item_vec (db : Database) (j : Nat) :
    (db.delete_item j).vec_items =
      db.vec_items.filter fun v =>
        v.1 ∉ (db.embedding_to_item.filter fun l => l.2 = j).map (·.1) := rfl

theorem deleteItemsLoop_containers :
    ∀ (l : List Nat) (db : Database), (deleteItemsLoop db l).containers = db.containers := by
  intro l
  induction l with
  | nil => intro db; rfl
  | cons i rest ih =>
    intro db
    rw [deleteItemsLoop, ih, delete_item_containers]

theorem deleteItemsLoop_items_sub :
    ∀ (l : List Nat) (db : Database),
      ∀ r ∈ (deleteItemsLoop db l).items, r ∈ db.items ∧ r.id ∉ l := by
  intro l
  induction l with
  | nil => intro db r hr; exact ⟨hr, by simp⟩
  | cons i rest ih =>
    intro db r hr
    rw [deleteItemsLoop] at hr
    obtain ⟨h1, h2⟩ := ih (db.delete_item i) r hr
    rw [delete_item_items] at h1
    have h3 := List.mem_of_mem_filter h1
    have h4 : ¬ r.id = i := by simpa using List.of_mem_filter h1
    exact ⟨h3, by simp [h4, h2]⟩

theorem deleteItemsLoop_items_sublist :
    ∀ (l : List Nat) (db : Database), (deleteItemsLoop db l).items.Sublist db.items := by
  intro l
  induction l with
  | nil => intro db; exact List.Sublist.refl _
  | cons i rest ih =>
    intro db
    rw [deleteItemsLoop]
    exact (ih (db.delete_item i)).trans (by rw [delete_item_items]; exact List.filter_sublist _)

theorem deleteItemsLoop_links_sublist :
    ∀ (l : List Nat) (db : Database),
      (deleteItemsLoop db l).embedding_to_item.Sublist db.embedding_to_item := by
  intro l
  induction l with
  | nil => intro db; exact List.Sublist.refl _
  | cons i rest ih =>
    intro db
    rw [deleteItemsLoop]
    exact (ih (db.delete_item i)).trans (by rw [delete_item_links]; exact List.filter_sublist _)

theorem deleteItemsLoop_vec_sublist :
    ∀ (l : List Nat) (db : Database),
      (deleteItemsLoop db l).vec_items.Sublist db.vec_items := by
  intro l
  induction l with
  | nil => intro db; exact List.Sublist.refl _
  | cons i rest ih =>
    intro db
    rw [deleteItemsLoop]
    exact (ih (db.delete_item i)).trans (by rw [delete_item_vec]; exact List.filter_sublist _)

/-- Three-way consistency of one original embedding link during subtree
deletion: either the link row, its `vec_items` row and its owning item row
are all still present, or all three are gone.  `delete_item` removes the
three together. -/
def EmbState (db : Database) (l : Nat × Nat) : Prop :=
  (l ∈ db.embedding_to_item ∧ l.1 ∈ db.vec_items.map (·.1) ∧ ∃ r ∈ db.items, r.id = l.2) ∨
  (l ∉ db.embedding_to_item ∧ l.1 ∉ db.vec_items.map (·.1) ∧ ∀ r ∈ db.items, r.id ≠ l.2)

theorem delete_item_embState (db0 db : Database)
    (hemb : (db0.embedding_to_item.map (·.1)).Nodup)
    (hsub : db.embedding_to_item.Sublist db0.embedding_to_item)
    (j : Nat) (l : Nat × Nat) (hst : EmbState db l) :
    EmbState (db.delete_item j) l := by
  rcases hst with ⟨h1, h2, r, hr, hrid⟩ | ⟨h1, h2, h3⟩
  · by_cases hj : l.2 = j
    · right
      refine ⟨?_, ?_, ?_⟩
      · rw [delete_item_links]
        intro hmem
        have hkeep := List.of_mem_filter hmem
        simp [hj] at hkeep
      · rw [delete_item_vec]
        intro hmem
        simp only [List.mem_map] at hmem
        obtain ⟨v, hv, hv1⟩ := hmem
        have hkeep : v.1 ∉ (db.embedding_to_item.filter fun l' => l'.2 = j).map (·.1) := by
          simpa using List.of_mem_filter hv
        exact hkeep (List.mem_map.mpr
          ⟨l, List.mem_filter.mpr ⟨h1, by simp [hj]⟩, by rw [hv1]⟩)
      · intro r' hr'
        rw [delete_item_items] at hr'
        have hne : ¬ r'.id = j := by simpa using List.of_mem_filter hr'
        intro heq
        exact hne (heq.trans hj)
    · left
      refine ⟨?_, ?_, ?_⟩
      · rw [delete_item_links]
        exact List.mem_filter.mpr ⟨h1, by simpa using hj⟩
      · simp only [List.mem_map] at h2
        obtain ⟨v, hv, hv1⟩ := h2
        rw [delete_item_vec]
        refine List.mem_map.mpr ⟨v, List.mem_filter.mpr ⟨hv, decide_eq_true ?_⟩, hv1⟩
        intro hmem
        simp only [List.mem_map] at hmem
        obtain ⟨l', hl', hl'1⟩ := hmem
        have hl'j : l'.2 = j := by simpa using List.of_mem_filter hl'
        have hl'mem := List.mem_of_mem_filter hl'
        have heq : l' = l := List.inj_on_of_nodup_map hemb
          (hsub.subset hl'mem) (hsub.subset h1) (by rw [hl'1, hv1])
        exact hj (heq ▸ hl'j)
      · refine ⟨r, ?_, hrid⟩
        rw [delete_item_items]
        refine List.mem_filter.mpr ⟨hr, decide_eq_true ?_⟩
        intro hrj
        exact hj (by rw [← hrid, hrj])
  · right
    refine ⟨?_, ?_, ?_⟩
    · rw [delete_item_links]
      intro hmem
      exact h1 (List.mem_of_mem_filter hmem)
    · rw [delete_item_vec]
      intro hmem
      simp only [List.mem_map] at hmem
      obtain ⟨v, hv, hv1⟩ := hmem
      exact h2 (List.mem_map.mpr ⟨v, List.mem_of_mem_filter hv, hv1⟩)
    · intro r hr
      rw [delete_item_items] at hr
      exact h3 r (List.mem_of_mem_filter hr)

theorem deleteItemsLoop_embState (db0 : Database)
    (hemb : (db0.embedding_to_item.map (·.1)).Nodup) (l : Nat × Nat) :
    ∀ (js : List Nat) (db : Database),
      db.embedding_to_item.Sublist db0.embedding_to_item →
      EmbState db l → EmbState (deleteItemsLoop db js) l := by
  intro js
  induction js with
  | nil => intro db _ h; exact h
  | cons j rest ih =>
    intro db hsub h
    rw [deleteItemsLoop]
    apply ih (db.delete_item j)
    · rw [delete_item_links]
      exact (List.filter_sublist _).trans hsub
    · exact delete_item_embState db0 db hemb hsub j l h

theorem parentOf_of_mem (db : Database) (hnodup : (db.containers.map (·.id)).Nodup)
    (r : ContainerRow) (hr : r ∈ db.containers) : parentOf db r.id = r.contained_by := by
  unfold parentOf
  cases hf : db.containers.find? fun r' => r'.id = r.id with
  | none =>
    exfalso
    have hs : (db.containers.find? fun r' => r'.id = r.id).isSome :=
      List.find?_isSome.mpr ⟨r, hr, decide_eq_true rfl⟩
    rw [hf] at hs
    simp at hs
  | some r' =>
    have heq : r' = r := List.inj_on_of_nodup_map hnodup (List.mem_of_find?_eq_some hf) hr
      (by simpa using List.find?_some hf)
    rw [heq]
    rfl

theorem children_parentOf_orig (db0 db : Database)
    (hnodup0 : (db0.containers.map (·.id)).Nodup)
    (hsub : db.containers.Sublist db0.containers) (cur d : Nat)
    (hd : d ∈ db.get_container_children cur) : parentOf db0 d = some cur := by
  unfold Database.get_container_children at hd
  simp only [List.mem_map] at hd
  obtain ⟨row, hrow, hrowid⟩ := hd
  have hcb : row.contained_by = some cur := by simpa using List.of_mem_filter hrow
  have hrow0 : row ∈ db0.containers := hsub.subset (List.mem_of_mem_filter hrow)
  have := parentOf_of_mem db0 hnodup0 row hrow0
  rw [hrowid] at this
  rw [this, hcb]

theorem get_container_items_ids (db : Database) (c : Nat) :
    (db.get_container_items c).map (·.id) =
      (db.items.filter fun r => r.contained_by = c).map (·.id) := by
  unfold Database.get_container_items
  rw [List.map_map]
  rfl

/-- Loop invariant of `Database::delete_container` relative to the starting
state `db0` and the deleted root `C`: tables only shrink; every id on the
worklist reaches the root; every still-present container of `C`'s subtree has
a parent chain of still-present containers up to some worklist entry; every
still-present item of the subtree still has its container; and every original
embedding link of a subtree item is in all-present or all-deleted state. -/
structure DelInv (db0 : Database) (C : Nat) (db : Database) (stack : List Nat) : Prop where
  subC : db.containers.Sublist db0.containers
  subI : db.items.Sublist db0.items
  subL : db.embedding_to_item.Sublist db0.embedding_to_item
  subV : db.vec_items.Sublist db0.vec_items
  reachS : ∀ s ∈ stack, ∃ m, iterP (parentOf db0) m s = some 1
  sched : ∀ D, (∃ m, iterP (parentOf db0) m D = some C) →
    D ∈ db.containers.map (·.id) →
    ∃ s ∈ stack, ∃ k, iterP (parentOf db0) k D = some s ∧
      ∀ j, j < k → ∀ e, iterP (parentOf db0) j D = some e →
        e ∈ db.containers.map (·.id)
  itemsLive : ∀ r ∈ db.items, (∃ m, iterP (parentOf db0) m r.contained_by = some C) →
    r.contained_by ∈ db.containers.map (·.id)
  embSt : ∀ l ∈ db0.embedding_to_item, ∀ r0 ∈ db0.items, r0.id = l.2 →
    (∃ m, iterP (parentOf db0) m r0.contained_by = some C) → EmbState db l

theorem delInv_step (db0 : Database) (C : Nat)
    (hnodup0 : (db0.containers.map (·.id)).Nodup)
    (hemb0 : (db0.embedding_to_item.map (·.1)).Nodup)
    (db : Database) (cur : Nat) (stack : List Nat)
    (hinv : DelInv db0 C db (cur :: stack)) :
    DelInv db0 C
      { deleteItemsLoop db ((db.get_container_items cur).map (·.id)) with
        containers :=
          (deleteItemsLoop db ((db.get_container_items cur).map (·.id))).containers.filter
            fun r => ¬ r.id = cur }
      (((deleteItemsLoop db
          ((db.get_container_items cur).map (·.id))).get_container_children cur).reverse
        ++ stack) := by
  have hcont1 : (deleteItemsLoop db ((db.get_container_items cur).map (·.id))).containers =
      db.containers := deleteItemsLoop_containers _ db
  have hsub1 : (deleteItemsLoop db ((db.get_container_items cur).map (·.id))).containers.Sublist
      db0.containers := by rw [hcont1]; exact hinv.subC
  have hchild : ∀ d ∈ (deleteItemsLoop db
      ((db.get_container_items cur).map (·.id))).get_container_children cur,
      parentOf db0 d = some cur :=
    fun d hd => children_parentOf_orig db0 _ hnodup0 hsub1 cur d hd
  have hpres2 : ∀ e, e ∈ db.containers.map (·.id) → e ≠ cur →
      e ∈ ((deleteItemsLoop db ((db.get_container_items cur).map (·.id))).containers.filter
        fun r => ¬ r.id = cur).map (·.id) := by
    intro e he hne
    simp only [List.mem_map] at he
    obtain ⟨row, hrow, hrowid⟩ := he
    refine List.mem_map.mpr ⟨row, List.mem_filter.mpr ⟨by rw [hcont1]; exact hrow,
      decide_eq_true ?_⟩, hrowid⟩
    rw [hrowid]
    exact hne
  constructor
  · dsimp only
    rw [hcont1]
    exact (List.filter_sublist _).trans hinv.subC
  · exact (deleteItemsLoop_items_sublist _ db).trans hinv.subI
  · exact (deleteItemsLoop_links_sublist _ db).trans hinv.subL
  · exact (deleteItemsLoop_vec_sublist _ db).trans hinv.subV
  · intro s hs
    rcases List.mem_append.mp hs with hs | hs
    · rw [List.mem_reverse] at hs
      have hp := hchild s hs
      obtain ⟨m, hm⟩ := hinv.reachS cur (List.mem_cons_self cur stack)
      refine ⟨1 + m, ?_⟩
      rw [iterP_add, iterP_one, hp]
      exact hm
    · exact hinv.reachS s (List.mem_cons_of_mem cur hs)
  · intro D hdesc hpres
    have hpres' : D ∈ (db.containers.filter fun r => ¬ r.id = cur).map (·.id) := by
      have : ((deleteItemsLoop db
          ((db.get_container_items cur).map (·.id))).containers.filter
          fun r => ¬ r.id = cur) = db.containers.filter fun r => ¬ r.id = cur := by
        rw [hcont1]
      rw [← this]
      exact hpres
    have hDmem : D ∈ db.containers.map (·.id) ∧ D ≠ cur := by
      simp only [List.mem_map] at hpres'
      obtain ⟨row, hrow, hrowid⟩ := hpres'
      have h1 := List.mem_of_mem_filter hrow
      have h2 : ¬ row.id = cur := by simpa using List.of_mem_filter hrow
      exact ⟨List.mem_map.mpr ⟨row, h1, hrowid⟩, by rw [← hrowid]; exact h2⟩
    obtain ⟨s, hs, k, hk, hkpres⟩ := hinv.sched D hdesc hDmem.1
    by_cases hcur : ∃ j, j ≤ k ∧ iterP (parentOf db0) j D = some cur
    · obtain ⟨jw, hjwle, hjw⟩ := hcur
      have hex : ∃ j, iterP (parentOf db0) j D = some cur := ⟨jw, hjw⟩
      have hQ : iterP (parentOf db0) (Nat.find hex) D = some cur := Nat.find_spec hex
      have hminle : Nat.find hex ≤ jw := Nat.find_min' hex hjw
      have hj0pos : 1 ≤ Nat.find hex := by
        rcases Nat.eq_zero_or_pos (Nat.find hex) with h0 | h1
        · exfalso
          rw [h0] at hQ
          simp only [iterP, Option.some.injEq] at hQ
          exact hDmem.2 hQ
        · exact h1
      obtain ⟨x, hx, hpx⟩ := iterP_snoc (parentOf db0) (Nat.find hex) D cur hj0pos hQ
      have hxpres : x ∈ db.containers.map (·.id) := by
        rcases Nat.lt_or_ge (Nat.find hex - 1) k with hlt | hge
        · exact hkpres (Nat.find hex - 1) hlt x hx
        · -- find - 1 ≥ k forces find = k or beyond; but find ≤ jw ≤ k, so find - 1 < k
          -- unless find = k; then x is at k - 1 < k
          have hfk : Nat.find hex = k := by omega
          have hxk : iterP (parentOf db0) (k - 1) D = some x := by rw [← hfk]; exact hx
          exact hkpres (k - 1) (by omega) x hxk
      have hxchild : x ∈ (deleteItemsLoop db
          ((db.get_container_items cur).map (·.id))).get_container_children cur := by
        simp only [List.mem_map] at hxpres
        obtain ⟨row, hrow, hrowid⟩ := hxpres
        have hrow0 : row ∈ db0.containers := hinv.subC.subset hrow
        have hpr := parentOf_of_mem db0 hnodup0 row hrow0
        rw [hrowid] at hpr
        have hcb : row.contained_by = some cur := by rw [← hpr]; exact hpx
        unfold Database.get_container_children
        rw [hcont1]
        exact List.mem_map.mpr ⟨row, List.mem_filter.mpr ⟨hrow, by simp [hcb]⟩, hrowid⟩
      refine ⟨x, List.mem_append.mpr (Or.inl (List.mem_reverse.mpr hxchild)),
        Nat.find hex - 1, hx, ?_⟩
      intro j hj e hje
      have hjk : j < k := by omega
      have hpe := hkpres j hjk e hje
      have hecur : e ≠ cur := by
        intro h
        exact absurd (h ▸ hje) (Nat.find_min hex (by omega))
      exact hpres2 e hpe hecur
    · have hscur : s ≠ cur := by
        intro h
        exact hcur ⟨k, Nat.le_refl k, h ▸ hk⟩
      have hs' : s ∈ stack := by
        rcases List.mem_cons.mp hs with h | h
        · exact absurd h hscur
        · exact h
      refine ⟨s, List.mem_append.mpr (Or.inr hs'), k, hk, ?_⟩
      intro j hj e hje
      have hpe := hkpres j hj e hje
      have hecur : e ≠ cur := fun h => hcur ⟨j, by omega, h ▸ hje⟩
      exact hpres2 e hpe hecur
  · intro r hr hdesc
    have hr1 : r ∈ (deleteItemsLoop db ((db.get_container_items cur).map (·.id))).items := hr
    obtain ⟨hrdb, hrnot⟩ := deleteItemsLoop_items_sub _ db r hr1
    have hlive := hinv.itemsLive r hrdb hdesc
    have hne : r.contained_by ≠ cur := by
      intro h
      apply hrnot
      rw [get_container_items_ids]
      exact List.mem_map.mpr ⟨r, List.mem_filter.mpr ⟨hrdb, by simp [h]⟩, rfl⟩
    exact hpres2 r.contained_by hlive hne
  · intro l hl r0 hr0 hid hdesc
    have h1 := hinv.embSt l hl r0 hr0 hid hdesc
    exact deleteItemsLoop_embState db0 hemb0 l _ db hinv.subL h1

theorem deleteLoop_inv (db0 : Database) (C : Nat)
    (hnodup0 : (db0.containers.map (·.id)).Nodup)
    (hroot0 : parentOf db0 1 = none)
    (hemb0 : (db0.embedding_to_item.map (·.1)).Nodup) :
    ∀ (fuel : Nat) (db : Database) (stack : List Nat),
      muStack (parentOf db0) (db0.containers.map (·.id)).length stack < fuel →
      DelInv db0 C db stack →
      DelInv db0 C (deleteContainerLoop fuel db stack) [] := by
  intro fuel
  induction fuel with
  | zero => intro db stack hmu _; omega
  | succ n ih =>
    intro db stack hmu hinv
    cases stack with
    | nil =>
      rw [deleteContainerLoop]
      exact { hinv with
        reachS := fun s hs => absurd hs (List.not_mem_nil s),
        sched := hinv.sched }
    | cons cur rest =>
      rw [deleteContainerLoop]
      apply ih
      · have hcont1 : (deleteItemsLoop db
            ((db.get_container_items cur).map (·.id))).containers = db.containers :=
          deleteItemsLoop_containers _ db
        have hsub1 : (deleteItemsLoop db
            ((db.get_container_items cur).map (·.id))).containers.Sublist db0.containers := by
          rw [hcont1]; exact hinv.subC
        have hstep := muStack_step (parentOf db0) hroot0 (db0.containers.map (·.id))
          (fun x hx => parentOf_isSome_mem db0 x hx) cur rest
          ((deleteItemsLoop db
            ((db.get_container_items cur).map (·.id))).get_container_children cur)
          (hinv.reachS cur (List.mem_cons_self cur rest))
          (fun d hd => children_parentOf_orig db0 _ hnodup0 hsub1 cur d hd)
          (by
            have h1 := children_length_le
              (deleteItemsLoop db ((db.get_container_items cur).map (·.id))) cur
            rw [hcont1] at h1
            have h2 := hinv.subC.length_le
            simpa using Nat.le_trans h1 h2)
        have heq : muStack (parentOf db0) (db0.containers.map (·.id)).length
            (((deleteItemsLoop db
              ((db.get_container_items cur).map (·.id))).get_container_children cur).reverse
              ++ rest) =
            muStack (parentOf db0) (db0.containers.map (·.id)).length
            ((deleteItemsLoop db
              ((db.get_container_items cur).map (·.id))).get_container_children cur ++ rest) := by
          rw [muStack_append, muStack_append, muStack_reverse]
        omega
      · exact delInv_step db0 C hnodup0 hemb0 db cur rest hinv

/-- **C4.** For every container `C` in a well-formed store, when
`delete_container(C)` returns, every container of `C`'s subtree (`C` itself,
its children, and all transitive descendants) is gone, every item contained
by any of those containers is gone, and those items' embedding rows — the
`vec_items` rows and the link rows — are gone too: no orphan container, item,
or embedding from the subtree survives.  The hypotheses state the integrity
facts SQLite guarantees: unique ids (PRIMARY KEY columns) and every link
referencing an existing vector row. -/
theorem delete_container_removes_subtree (db : Database) (C : Nat)
    (hwf : TreeOk db) (hCmem : C ∈ db.containers.map (·.id))
    (hitems : (db.items.map (·.id)).Nodup)
    (hemb : (db.embedding_to_item.map (·.1)).Nodup)
    (hvecref : ∀ l ∈ db.embedding_to_item, l.1 ∈ db.vec_items.map (·.1)) :
    (∀ D, (∃ m, iterP (parentOf db) m D = some C) →
        D ∉ (db.delete_container C).containers.map (·.id)) ∧
    (∀ r ∈ db.items, (∃ m, iterP (parentOf db) m r.contained_by = some C) →
        ∀ r' ∈ (db.delete_container C).items, r'.id ≠ r.id) ∧
    (∀ l ∈ db.embedding_to_item, ∀ r ∈ db.items, r.id = l.2 →
        (∃ m, iterP (parentOf db) m r.contained_by = some C) →
        l ∉ (db.delete_container C).embedding_to_item ∧
        ∀ v ∈ (db.delete_container C).vec_items, v.1 ≠ l.1) := by
  obtain ⟨hnodup, hroot, hreach⟩ := hwf
  have hinv0 : DelInv db C db [C] := by
    refine ⟨List.Sublist.refl _, List.Sublist.refl _, List.Sublist.refl _,
      List.Sublist.refl _, ?_, ?_, ?_, ?_⟩
    · intro s hs
      rw [List.mem_singleton] at hs
      subst hs
      have hrc := hreach s hCmem
      unfold reachesRootB at hrc
      rw [List.any_eq_true] at hrc
      obtain ⟨m, _, hm⟩ := hrc
      exact ⟨m, by simpa using hm⟩
    · intro D hdesc hpres
      obtain ⟨m, hm⟩ := hdesc
      refine ⟨C, List.mem_singleton_self C, m, hm, ?_⟩
      intro j hj e hje
      have h1 : iterP (parentOf db) (j + (m - j)) D = some C := by
        rw [show j + (m - j) = m by omega]
        exact hm
      rw [iterP_add, hje] at h1
      have h3 : iterP (parentOf db) (m - j) e = some C := h1
      have h2 : m - j = (m - j - 1) + 1 := by omega
      rw [h2, iterP] at h3
      cases hpe : parentOf db e with
      | none => rw [hpe] at h3; simp at h3
      | some q => exact parentOf_isSome_mem db e (by simp [hpe])
    · intro r hr hdesc
      obtain ⟨m, hm⟩ := hdesc
      cases m with
      | zero =>
        simp only [iterP, Option.some.injEq] at hm
        rw [hm]
        exact hCmem
      | succ m' =>
        rw [iterP] at hm
        cases hpe : parentOf db r.contained_by with
        | none => rw [hpe] at hm; simp at hm
        | some q => exact parentOf_isSome_mem db r.contained_by (by simp [hpe])
    · intro l hl r0 hr0 hid _
      exact Or.inl ⟨hl, hvecref l hl, r0, hr0, hid⟩
  have hN1 : 1 ≤ (db.containers.map (·.id)).length := by
    cases hmap : db.containers.map (·.id) with
    | nil => rw [hmap] at hCmem; exact absurd hCmem (List.not_mem_nil C)
    | cons a as => simp [hmap]
  have hmu0 : muStack (parentOf db) (db.containers.map (·.id)).length [C] <
      (db.containers.length + 1) ^ (db.containers.length + 1) := by
    have hNc : (db.containers.map (·.id)).length = db.containers.length := by simp
    unfold muStack
    simp only [List.map_cons, List.map_nil, List.sum_cons, List.sum_nil, Nat.add_zero]
    calc ((db.containers.map (·.id)).length + 1) ^
          ((db.containers.map (·.id)).length -
            (distToRoot (parentOf db) ((db.containers.map (·.id)).length + 1) C).getD 0)
        ≤ ((db.containers.map (·.id)).length + 1) ^ (db.containers.map (·.id)).length :=
          Nat.pow_le_pow_right (by omega) (by omega)
      _ < ((db.containers.map (·.id)).length + 1) ^ ((db.containers.map (·.id)).length + 1) := by
          apply Nat.pow_lt_pow_right (by omega)
          omega
      _ = (db.containers.length + 1) ^ (db.containers.length + 1) := by rw [hNc]
  have hfinal := deleteLoop_inv db C hnodup hroot hemb
    ((db.containers.length + 1) ^ (db.containers.length + 1)) db [C] hmu0 hinv0
  have hfinal' : DelInv db C (db.delete_container C) [] := hfinal
  refine ⟨?_, ?_, ?_⟩
  · intro D hdesc hpres
    obtain ⟨s, hs, _⟩ := hfinal'.sched D hdesc hpres
    exact absurd hs (List.not_mem_nil s)
  · intro r hr hdesc r' hr' heq
    have hr'0 : r' ∈ db.items := hfinal'.subI.subset hr'
    have heqr : r' = r := List.inj_on_of_nodup_map hitems hr'0 hr heq
    rw [heqr] at hr'
    have hlive := hfinal'.itemsLive r hr' hdesc
    obtain ⟨s, hs, _⟩ := hfinal'.sched r.contained_by hdesc hlive
    exact absurd hs (List.not_mem_nil s)
  · intro l hl r hr hid hdesc
    have hst := hfinal'.embSt l hl r hr hid hdesc
    rcases hst with ⟨hlm, _, r', hr', hr'id⟩ | ⟨h1, h2, _⟩
    · exfalso
      have hr'0 : r' ∈ db.items := hfinal'.subI.subset hr'
      have heqr : r' = r := List.inj_on_of_nodup_map hitems hr'0 hr (by rw [hr'id, hid])
      rw [heqr] at hr'
      have hlive := hfinal'.itemsLive r hr' hdesc
      obtain ⟨s, hs, _⟩ := hfinal'.sched r.contained_by hdesc hlive
      exact absurd hs (List.not_mem_nil s)
    · refine ⟨h1, ?_⟩
      intro v hv heq
      exact h2 (List.mem_map.mpr ⟨v, hv, heq⟩)

/-- Witness database for C4: root(1) ← box(2) ← inner(3), with one item in
container 3 owning three embeddings. -/
def dbDel : Database where
  model := fun _ => []
  containers := [{ id := 1, name := "ROOT", location := none, contained_by := none },
                 { id := 2, name := "box", location := none, contained_by := some 1 },
                 { id := 3, name := "inner", location := none, contained_by := some 2 }]
  items := [{ id := 1, name := "knife", description := "steel", small_photo := [],
              large_photo := [], contained_by := 3 }]
  vec_items := [(1, []), (2, []), (3, [])]
  embedding_to_item := [(1, 1), (2, 1), (3, 1)]
  import_log := []
  next_item_id := 2
  next_vec_rowid := 4
  next_container_id := 4
  next_import_id := 1

theorem delete_container_removes_subtree_witness :
    (3 : Nat) ∉ (dbDel.delete_container 2).containers.map (·.id) :=
  (delete_container_removes_subtree dbDel 2 (by decide) (by decide) (by decide) (by decide)
    (by decide)).1 3 ⟨1, by decide⟩
